import Mathlib

/-!
Verification of the Reviewable enterprise-tools ETL pipeline
(`src/extract_data.js`, `src/load_data.js`).

The development shallowly embeds the canonical (most recent) generation of
the pipeline.  JSON values are modelled by `JVal`; JavaScript objects are
assoc lists of fields kept in enumeration order with pairwise-distinct keys
(Firebase never produces duplicate keys; arrays do not occur in these trees —
Firebase serialises them as index-keyed objects, which is also exactly how
`mapAllUserKeys` walks them via `for (const key in object)`).
-/

set_option autoImplicit false

namespace EnterpriseTools

/-- A JSON value as stored in the Firebase-like tree.  Numbers are modelled
as integers (the values the pipeline touches are ids, timestamps and build
numbers); `obj` fields are listed in JavaScript enumeration order. -/
inductive JVal where
  | null
  | bool (b : Bool)
  | num (n : Int)
  | str (s : String)
  | obj (fields : List (String × JVal))

namespace JVal

/-- `_.isObject` restricted to the values occurring here: only `obj` is an
object. -/
def isObj : JVal → Bool
  | .obj _ => true
  | _ => false

/-- `_.isObject(v) && _.isEmpty(v)`: the value is an object with no keys. -/
def isEmptyObj : JVal → Bool
  | .obj [] => true
  | _ => false

/-- lodash `_.isEmpty`: `null`, booleans and numbers are empty, strings and
objects are empty when they have no characters / keys. -/
def jsIsEmpty : JVal → Bool
  | .null => true
  | .bool _ => true
  | .num _ => true
  | .str s => s.isEmpty
  | .obj fs => fs.isEmpty

/-- JavaScript truthiness of a value. -/
def jsTruthy : JVal → Bool
  | .null => false
  | .bool b => b
  | .num n => n != 0
  | .str s => !s.isEmpty
  | .obj _ => true

end JVal

/-- Property read `o[k]` on an object's field list: the first (only) binding
of `k`, if any. -/
def jsGet (k : String) (fs : List (String × JVal)) : Option JVal :=
  (fs.find? (fun p => p.1 == k)).map (·.2)

/-- `delete o[k]`. -/
def jsDelete (k : String) (fs : List (String × JVal)) : List (String × JVal) :=
  fs.filter (fun p => p.1 != k)

/-- `o[k] = v`: replaces the binding in place when the key exists (JS keeps
the original enumeration position), otherwise appends the new binding. -/
def jsAssign (k : String) (v : JVal) (fs : List (String × JVal)) :
    List (String × JVal) :=
  if fs.any (fun p => p.1 == k) then
    fs.map (fun p => if p.1 == k then (k, v) else p)
  else fs ++ [(k, v)]

/-- The field list of a value when it is an object, `[]` otherwise (lodash
collection functions treat non-objects as empty). -/
def objFields : JVal → List (String × JVal)
  | .obj fs => fs
  | _ => []

/-- Keys of a field list (the `for (const key in object)` snapshot). -/
def keysOf (fs : List (String × JVal)) : List String := fs.map Prod.fst

/-- Pairwise-distinct key list, as a Boolean. -/
def nodupKeys : List String → Bool
  | [] => true
  | k :: ks => (!ks.contains k) && nodupKeys ks

mutual
/-- Well-formedness of a value: every object has pairwise-distinct keys
(what a real JavaScript object guarantees). -/
def WFJ : JVal → Bool
  | .obj fs => nodupKeys (keysOf fs) && WFL fs
  | _ => true

/-- Well-formedness of every value of a field list. -/
def WFL : List (String × JVal) → Bool
  | [] => true
  | p :: ps => WFJ p.2 && WFL ps
end

mutual
/-- Nesting depth of a value (leaves are `0`). -/
def depthJ : JVal → Nat
  | .obj fs => 1 + depthL fs
  | _ => 0

/-- Maximal depth of the values of a field list. -/
def depthL : List (String × JVal) → Nat
  | [] => 0
  | p :: ps => max (depthJ p.2) (depthL ps)
end

mutual
/-- No object strictly inside the value is empty: every field's value is a
non-empty object or a leaf, recursively.  (The spec's structural invariant
for rewritten output.) -/
def noEmptyChildren : JVal → Bool
  | .obj fs => noEmptyChildrenL fs
  | _ => true

/-- `noEmptyChildren` for every value of a field list, and none of those
values is an empty object. -/
def noEmptyChildrenL : List (String × JVal) → Bool
  | [] => true
  | p :: ps => !p.2.isEmptyObj && noEmptyChildren p.2 && noEmptyChildrenL ps
end

/-! ### String-level identifier grammar

Models of the regular expressions used by `mapAllUserKeys`:
`/^github:\d+$/`, `/^github:\d+(\s*,\s*github:\d+)*$/`, the split separator
`/\s*,\s*/` and the composite-key suffix `/\|github:\d+$/`.  `\d` is `[0-9]`;
`\s` is modelled by the ASCII whitespace characters (the JS class also
contains Unicode spaces, which never occur in these identifier lists). -/

/-- JS `\s` (ASCII part): space, tab, newline, carriage return, vertical
tab, form feed. -/
def isJsWs (c : Char) : Bool :=
  c == ' ' || c == '\t' || c == '\n' || c == '\r' || c == '\x0b' || c == '\x0c'

/-- The literal `github:` as characters. -/
def githubLit : List Char := ['g', 'i', 't', 'h', 'u', 'b', ':']

/-- Consume a `github:\d+` token at the head of the character list
(maximal digit run) and return the remainder; `none` when the head is not
such a token. -/
def parseUserKey : List Char → Option (List Char)
  | 'g' :: 'i' :: 't' :: 'h' :: 'u' :: 'b' :: ':' :: rest =>
    if (rest.takeWhile Char.isDigit).isEmpty then none
    else some (rest.drop (rest.takeWhile Char.isDigit).length)
  | _ => none

/-- Full match of `/^github:\d+$/`. -/
def isUserKeyChars (cs : List Char) : Bool :=
  match parseUserKey cs with
  | some [] => true
  | _ => false

/-- Greedy match of the separator `/\s*,\s*/` at the head of the list:
its length, or `none` when no comma follows the leading whitespace run. -/
def sepLen (cs : List Char) : Option Nat :=
  match cs.drop (cs.takeWhile isJsWs).length with
  | ',' :: rest =>
    some ((cs.takeWhile isJsWs).length + 1 + (rest.takeWhile isJsWs).length)
  | _ => none

/-- After an initial `github:\d+` token, checks `(\s*,\s*github:\d+)*$`. -/
def restIsSepIdStar (cs : List Char) : Bool :=
  match cs with
  | [] => true
  | c :: cs' =>
    match hsep : sepLen (c :: cs') with
    | some n =>
      match hid : parseUserKey ((c :: cs').drop n) with
      | some rest => restIsSepIdStar rest
      | none => false
    | none => false
termination_by cs.length
decreasing_by
  have h1 : rest.length < ((c :: cs').drop n).length := by
    clear hsep
    unfold parseUserKey at hid
    split at hid
    · next rest0 heq =>
      split at hid
      · cases hid
      · next hds =>
        cases hid
        rw [heq]
        simp only [List.length_drop, List.length_cons]
        have hle := (List.takeWhile_sublist (l := rest0) (p := Char.isDigit)).length_le
        have hne : (rest0.takeWhile Char.isDigit).length ≠ 0 := by
          intro h0
          exact hds (by simp [List.isEmpty_iff, List.eq_nil_of_length_eq_zero h0])
        omega
    · cases hid
  have h2 : ((c :: cs').drop n).length ≤ (c :: cs').length := by
    simp [List.length_drop]
  simp only [List.length_cons] at *
  omega

/-- Full match of `/^github:\d+(\s*,\s*github:\d+)*$/`. -/
def isUserKeyListChars (cs : List Char) : Bool :=
  match parseUserKey cs with
  | some rest => restIsSepIdStar rest
  | none => false

/-- `String.prototype.split` on `/\s*,\s*/`: scan for the leftmost
(greedy) separator match, emit the piece before it, continue after it.
`acc` is the current piece, reversed. -/
def splitWsCommaWsAux : List Char → List Char → List (List Char)
  | acc, [] => [acc.reverse]
  | acc, c :: cs =>
    match hsep : sepLen (c :: cs) with
    | some n => acc.reverse :: splitWsCommaWsAux [] ((c :: cs).drop n)
    | none => splitWsCommaWsAux (c :: acc) cs
termination_by _ cs => cs.length
decreasing_by
  · have h1 : 1 ≤ n := by
      unfold sepLen at hsep
      split at hsep
      · cases hsep; omega
      · cases hsep
    simp only [List.length_drop, List.length_cons]
    omega
  · simp only [List.length_cons]; omega

/-- `Array.prototype.join(',')`. -/
def joinComma : List String → String
  | [] => ""
  | [u] => u
  | u :: us => u ++ "," ++ joinComma us

/-- lodash `_.uniq`, keeping the first occurrence of each element. -/
def uniqFirstAux (seen : List String) : List String → List String
  | [] => []
  | x :: xs =>
    if seen.contains x then uniqFirstAux seen xs
    else x :: uniqFirstAux (x :: seen) xs

def uniqFirst (l : List String) : List String := uniqFirstAux [] l

/-- The match of `/\|github:\d+$/`, if any: decomposes `s` as
`pre ++ "|" ++ key` with `key` of the form `github:<digits>` running to the
end of the string.  Returns `(pre, key)`. -/
def barSuffixSplit (s : String) : Option (String × String) :=
  if (s.data.reverse.takeWhile Char.isDigit).isEmpty then none
  else if (s.data.reverse.drop
      (s.data.reverse.takeWhile Char.isDigit).length).take 8 =
      [':', 'b', 'u', 'h', 't', 'i', 'g', '|'] then
    some (String.mk ((s.data.reverse.drop
            (s.data.reverse.takeWhile Char.isDigit).length).drop 8).reverse,
          String.mk ('g' :: 'i' :: 't' :: 'h' :: 'u' :: 'b' :: ':' ::
            (s.data.reverse.takeWhile Char.isDigit).reverse))
  else none

/-- The string branch of `mapAllUserKeys`: rewrite a single identifier, a
comma-joined identifier list (split, map, dedupe, re-join with `","`), or
the trailing identifier of a `...|github:\d+` composite key; any other
string is returned unchanged. -/
def mapUserString (f : String → String) (s : String) : String :=
  if isUserKeyChars s.data then f s
  else if isUserKeyListChars s.data then
    joinComma
      (uniqFirst ((splitWsCommaWsAux [] s.data).map (fun p => f (String.mk p))))
  else
    match barSuffixSplit s with
    | some pk => pk.1 ++ "|" ++ f pk.2
    | none => s

/-! ### The reference rewriter `mapAllUserKeys`

`mapAllUserKeys(object, context)` walks the value in place.  The walk is
modelled with explicit fuel: the `for (const key in object)` loop re-reads
`object[key]` at each step, so a key whose binding was overwritten by an
earlier iteration (`object[newKey] = value` where `newKey` collides with a
later snapshot key) is rewritten in its already-rewritten form — the fuel
bounds the nesting depth, which rewriting never increases.  The `context`
argument only feeds the ghost log and never influences the produced value,
so the embedding takes the pure mapping function `f` (see `mapUserKeyFn`). -/
/-- One iteration of the `for (const key in object)` loop of
`mapAllUserKeys`: re-read `object[key]` (a key deleted by an earlier
iteration is skipped, as `for..in` skips deleted properties), rewrite the
value recursively and the key through the string branch, delete the old
binding when the key changed, then either drop the entry (value emptied to
`{}`) or store the value under the new key. -/
def mapStep (rec : JVal → JVal) (f : String → String)
    (cur : List (String × JVal)) (k : String) : List (String × JVal) :=
  match jsGet k cur with
  | none => cur
  | some v0 =>
    let val := rec v0
    let newKey := mapUserString f k
    let cur1 := if k = newKey then cur else jsDelete k cur
    if val.isEmptyObj then jsDelete k cur1 else jsAssign newKey val cur1

def mapAllUserKeysF (f : String → String) : Nat → JVal → JVal
  | 0, v => v
  | n + 1, v =>
    match v with
    | .str s => .str (mapUserString f s)
    | .obj fs =>
      .obj ((keysOf fs).foldl (mapStep (fun w => mapAllUserKeysF f n w) f) fs)
    | v => v

/-- `mapAllUserKeys` with enough fuel for its argument. -/
def mapAllUserKeys (f : String → String) (v : JVal) : JVal :=
  mapAllUserKeysF f (depthJ v + 1) v

/-- Lookup in the user map (a JSON object of old → new id strings). -/
def lookupStr (m : List (String × String)) (k : String) : Option String :=
  (m.find? (fun p => p.1 == k)).map (·.2)

/-- Value computed by the canonical `mapUserKey` in explicit-map mode:
`userMap[userKey] || 'github:1'` (JS `||` also falls through on the falsy
empty string).  The ghost-log push is side-effect-only and modelled
separately (`mapUserKeyV2`). -/
def mapUserKeyFn (m : List (String × String)) (k : String) : String :=
  match lookupStr m k with
  | some v => if v.isEmpty then "github:1" else v
  | none => "github:1"

/-- Truthy lookup of `userMap[k]` (JS treats a bound empty string as
absent in the `||` chains below). -/
def lookupTruthy (m : List (String × String)) (k : String) : Option String :=
  match lookupStr m k with
  | some v => if v.isEmpty then none else some v
  | none => none

/-- `f` maps identifier strings to identifier strings.  This holds for the
canonical `mapUserKey` whenever the supplied user map's values are
identifiers (its ghost fallback `github:1` is one), and for the identity
mapping of identity mode. -/
def IdPres (f : String → String) : Prop :=
  ∀ s : String, isUserKeyChars s.data = true → isUserKeyChars (f s).data = true

mutual
/-- Every string leaf of the value is a fixed point of the rewriter's
string branch under the identity mapping, and so is every object key. -/
def idFixedStrs : JVal → Bool
  | .str s => mapUserString (fun k => k) s == s
  | .obj fs => idFixedStrsL fs
  | _ => true

/-- `idFixedStrs` over a field list: keys and values. -/
def idFixedStrsL : List (String × JVal) → Bool
  | [] => true
  | p :: ps => (mapUserString (fun k => k) p.1 == p.1) && idFixedStrs p.2 && idFixedStrsL ps
end

/-! ### `mapUserKey`: both generations

`mapUserKeyFn` above is the value computed by the canonical variant; the
definitions here model its side effects and the legacy variant's failure
mode. -/

/-- The canonical `mapUserKey(userKey, context)` with its side effects:
returns the mapped key, the updated user map (identity mode lazily
registers an unseen id as mapping to itself) and the `{userKey, context}`
ghost-log entry pushed, if any.  It can never fail: an unmapped id falls
back to the hardwired ghost sentinel `github:1`. -/
def mapUserKeyV2 (identityUserMap : Bool) (userMap : List (String × String))
    (userKey context : String) :
    String × List (String × String) × Option (String × String) :=
  let userMap2 := if identityUserMap && (lookupTruthy userMap userKey).isNone
                  then userMap ++ [(userKey, userKey)] else userMap
  let newUserKey := match lookupTruthy userMap2 userKey with
    | some v => v
    | none => "github:1"
  let ghostEntry := if (lookupTruthy userMap2 userKey).isNone && userKey != "github:1"
                    then some (userKey, context) else none
  (newUserKey, userMap2, ghostEntry)

/-- The legacy `mapUserKey(userKey)` (first-generation extractor, the only
variant in which ghosting can be disabled): `userMap[userKey] || args.ghost`,
throwing when both are falsy.  Returns the mapped key and whether the key
was pushed onto `ghostedUserKeys` (`newUserKey === args.ghost`). -/
def mapUserKeyV1 (userMap : List (String × String)) (ghost : Option String)
    (userKey : String) : Except String (String × Bool) :=
  let ghostT : Option String := match ghost with
    | some g => if g.isEmpty then none else some g
    | none => none
  match (lookupTruthy userMap userKey).orElse (fun _ => ghostT) with
  | none => .error ("User not mapped and no ghost specified: " ++ userKey)
  | some nk => .ok (nk, match ghost with
      | some g => nk == g
      | none => false)

/-! ### Streamed record writer -/

/-- One line of the ndjson output: `[key, value]`, or `[key, value, flags]`
when `flags` is present. -/
structure Line where
  key : String
  value : JVal
  flags : Option JVal

/-- `writeItem(key, value, flags)`: skips exactly `undefined`/`null` values
(`none` / `JVal.null` here), rewrites the value through `mapAllUserKeys`,
and appends one line — three elements exactly when `flags` is truthy (the
only flags object ever passed, `{placeholdersPresent}`, is an object and
hence truthy even when the field is `false`). -/
def writeItem (f : String → String) (key : String) (value : Option JVal)
    (flags : Option JVal) : Option Line :=
  match value with
  | none => none
  | some .null => none
  | some v =>
    some { key := key, value := mapAllUserKeys f v,
           flags := match flags with
                    | some fl => if fl.jsTruthy then some fl else none
                    | none => none }

/-! ### Organization-name mapping and rules extraction -/

/-- `mapOrg(org)`: identity when no org map was supplied; otherwise the
mapped value for the lowercased name when that is truthy, else the original
name.  (The `missingOrgs` diagnostic set it also feeds never influences a
produced value, and the defensive throw on an empty argument cannot fire on
the non-empty owner names used here.) -/
def mapOrg (orgMap : Option (List (String × String))) (org : String) : String :=
  match orgMap with
  | none => org
  | some m =>
    match lookupStr m (String.mk (org.data.map Char.toLower)) with
    | some v => if v.isEmpty then org else v
    | none => org

/-- `extractRules`: for every seed repository fetch `rules/:owner/:repo`
and hand the result straight to `writeItem` (no presence guard: absence is
delegated to `writeItem`'s null check).  `escape` is the store client's
`NodeFire.escape`; `ruleStore owner repo` models the fetch. -/
def extractRules (f : String → String) (escape : String → String)
    (orgMap : Option (List (String × String)))
    (ruleStore : String → String → Option JVal) (repoNames : List String) :
    List Line :=
  repoNames.filterMap (fun repoName =>
    let owner := (repoName.splitOn "/").getD 0 ""
    let repo := (repoName.splitOn "/").getD 1 ""
    writeItem f ("rules/" ++ escape (mapOrg orgMap owner) ++ "/" ++ escape repo)
      (ruleStore owner repo) none)

/-! ### Review-key harvesting (`extractRepositories` + dedup) -/

/-- `_.values` of a `pullRequests` / `oldPullRequests` map.  In the store
schema these maps send a pull-request number to a review key, which is a
string. -/
def mapValuesStr (v : Option JVal) : List String :=
  match v with
  | some (.obj fs) => fs.filterMap (fun p => match p.2 with
      | .str s => some s
      | _ => none)
  | _ => []

/-- The review-key harvesting of `extractRepositories`: for each seed repo
present in the store, concatenate the values of its `pullRequests` and
`oldPullRequests` maps onto the running `reviewKeys` list.  (The
sanitisation and `writeItem` of the repository record touch neither map and
are independent of the harvest.) -/
def collectStep (repoStore : String → Option JVal) (acc : List String)
    (repoName : String) : List String :=
  match repoStore repoName with
  | some repository =>
    acc ++ mapValuesStr (jsGet "pullRequests" (objFields repository))
        ++ mapValuesStr (jsGet "oldPullRequests" (objFields repository))
  | none => acc

def collectReviewKeys (repoStore : String → Option JVal)
    (repoNames : List String) : List String :=
  repoNames.foldl (collectStep repoStore) []

/-- `reviewKeys = _.uniq(reviewKeys)` performed by `extract()` after the
repository phase: the deduplicated reachable review-key set consumed by the
review, map and user phases. -/
def reachableReviewKeys (repoStore : String → Option JVal)
    (repoNames : List String) : List String :=
  uniqFirst (collectReviewKeys repoStore repoNames)

/-! ### Review sanitisation (`stripReview`) -/

/-- Field read `o.k` with JS semantics: the bound value, or `null` standing
in for `undefined` when absent or when `o` is not an object. -/
def getF (o : JVal) (k : String) : JVal :=
  (jsGet k (objFields o)).getD .null

/-- `_.pickBy(m.comments, ...)` keeping the comments whose key does not
match the `gh-` prefix pattern. -/
def filterComments (comments : JVal) : List (String × JVal) :=
  (objFields comments).filter (fun c => !List.isPrefixOf "gh-".data c.1.data)

/-- Per-entry body of the `_.pickBy` over `review.discussions` (and,
identically, `review.sentiments`): replace the entry's `comments` with the
`gh-`-filtered map.  The enclosing predicate keeps the entry iff a comment
remains. -/
def filterDiscussion (d : JVal) : JVal :=
  .obj (jsAssign "comments" (.obj (filterComments (getF d "comments"))) (objFields d))

/-- `participant.role === 'mentioned'`. -/
def isRoleMentioned (participant : JVal) : Bool :=
  match jsGet "role" (objFields participant) with
  | some (.str s) => s == "mentioned"
  | _ => false

/-- `delete review.lastWebhook; delete review.requestedTeams;
delete review.gitHubComments`. -/
def stripDeletes (fs : List (String × JVal)) : List (String × JVal) :=
  jsDelete "gitHubComments" (jsDelete "requestedTeams" (jsDelete "lastWebhook" fs))

/-- `_.omit(review.core, 'lastSweepTimestamp', 'lastReconciliationTimestamp')`
followed by the `ownerName` remap (`if (review.core.ownerName) ...`). -/
def cleanCore (orgMap : Option (List (String × String)))
    (fs : List (String × JVal)) : List (String × JVal) :=
  match jsGet "ownerName" ((objFields (getF (.obj fs) "core")).filter
      (fun p => p.1 != "lastSweepTimestamp" &&
        p.1 != "lastReconciliationTimestamp")) with
  | some (.str s) =>
    if s.isEmpty then
      (objFields (getF (.obj fs) "core")).filter
        (fun p => p.1 != "lastSweepTimestamp" &&
          p.1 != "lastReconciliationTimestamp")
    else
      jsAssign "ownerName" (.str (mapOrg orgMap s))
        ((objFields (getF (.obj fs) "core")).filter
          (fun p => p.1 != "lastSweepTimestamp" &&
            p.1 != "lastReconciliationTimestamp"))
  | _ =>
    (objFields (getF (.obj fs) "core")).filter
      (fun p => p.1 != "lastSweepTimestamp" &&
        p.1 != "lastReconciliationTimestamp")

/-- `review.core = ...` (the omit/remap above is stored back). -/
def stripCore (orgMap : Option (List (String × String)))
    (fs : List (String × JVal)) : List (String × JVal) :=
  jsAssign "core" (.obj (cleanCore orgMap fs)) fs

/-- `if (review.security) review.security.lowerCaseOwnerName =
_.toLower(mapOrg(review.security.lowerCaseOwnerName))`. -/
def stripSecurity (orgMap : Option (List (String × String)))
    (fs : List (String × JVal)) : List (String × JVal) :=
  match jsGet "security" fs with
  | some (.obj sec) =>
    (match jsGet "lowerCaseOwnerName" sec with
     | some (.str s) =>
       jsAssign "security"
         (.obj (jsAssign "lowerCaseOwnerName"
           (.str (String.mk ((mapOrg orgMap s).data.map Char.toLower))) sec)) fs
     | _ => fs)
  | _ => fs

/-- The surviving entries of the `_.pickBy` over `review.discussions` (or,
identically, `review.sentiments`): each entry's comments are re-filtered
and the entry is kept iff a comment remains. -/
def keptEntries (fs : List (String × JVal)) (field : String) :
    List (String × JVal) :=
  ((objFields (getF (.obj fs) field)).map
    (fun p => (p.1, filterDiscussion p.2))).filter
    (fun p => !(objFields (getF p.2 "comments")).isEmpty)

/-- `review.X = _.pickBy(review.X, ...); if (_.isEmpty(review.X)) delete
review.X` for `X` either `discussions` or `sentiments` (the code repeats
the same statements for both fields). -/
def stripCommentMap (fs : List (String × JVal)) (field : String) :
    List (String × JVal) :=
  if (keptEntries fs field).isEmpty then
    jsDelete field (jsAssign field (.obj (keptEntries fs field)) fs)
  else jsAssign field (.obj (keptEntries fs field)) fs

/-- `_.forEach(review.tracker, tracker => { tracker.participants =
_.omitBy(...) })`: drop participants that are merely `mentioned` and have
no user-map entry (when an explicit map was supplied). -/
def stripTracker (identityUserMap : Bool) (userMapMem : String → Bool)
    (fs : List (String × JVal)) : List (String × JVal) :=
  match jsGet "tracker" fs with
  | some (.obj trs) =>
    jsAssign "tracker" (.obj (trs.map (fun t =>
      (t.1, JVal.obj (jsAssign "participants"
        (.obj ((objFields (getF t.2 "participants")).filter (fun q =>
          !((!identityUserMap) && (!userMapMem q.1) && isRoleMentioned q.2))))
        (objFields t.2)))))) fs
  | _ => fs

/-- `stripReview(review, key)` of the canonical extractor, for runs without
an uploaded-files URL: the attachment-URL branch is skipped wholesale and
`placeholderAdded` (the second component) stays `false`.  The statements
are modelled one per definition above, applied in source order. -/
def stripReview (orgMap : Option (List (String × String)))
    (identityUserMap : Bool) (userMapMem : String → Bool) (review : JVal) :
    JVal × Bool :=
  (JVal.obj (stripCommentMap
    (stripTracker identityUserMap userMapMem
      (stripCommentMap
        (stripSecurity orgMap (stripCore orgMap (stripDeletes (objFields review))))
        "discussions"))
    "sentiments"), false)

/-! ### Review extraction (`extractReviews`) -/

/-- One `extractReviews` iteration for a single review key: live review →
strip and write under `reviews/`; else archived review → decode the
payload, strip, rewrite, re-encode and write under `archivedReviews/` with
a `{placeholdersPresent}` flags object; else record the key as missing.
`decode` models `JSON.parse ∘ gunzip ∘ base64-decode` of the payload and
`encode` its inverse (compression is an external collaborator); archive
payloads are present base64 strings in the store schema. -/
def extractReviewStep (f : String → String)
    (orgMap : Option (List (String × String)))
    (identityUserMap : Bool) (userMapMem : String → Bool)
    (liveStore archiveStore : String → Option JVal)
    (decode : String → JVal) (encode : JVal → String) (reviewKey : String) :
    List Line × List String :=
  match liveStore reviewKey with
  | some review =>
    let stripped := (stripReview orgMap identityUserMap userMapMem review).1
    ((writeItem f ("reviews/" ++ reviewKey) (some stripped) none).toList, [])
  | none =>
    match archiveStore reviewKey with
    | some archive =>
      let payload := match jsGet "payload" (objFields archive) with
        | some (.str p) => p
        | _ => ""
      let strippedPair := stripReview orgMap identityUserMap userMapMem (decode payload)
      let mapped := mapAllUserKeys f strippedPair.1
      let archive2 := JVal.obj (jsAssign "payload" (.str (encode mapped)) (objFields archive))
      ((writeItem f ("archivedReviews/" ++ reviewKey) (some archive2)
          (some (.obj [("placeholdersPresent", .bool strippedPair.2)]))).toList, [])
    | none => ([], [reviewKey])

/-- `extractReviews` over the whole reachable key list (the bounded
fan-out's interleaving is modelled sequentially; per-key results are
order-independent).  Returns the written lines and `missingReviewKeys`. -/
def extractReviews (f : String → String)
    (orgMap : Option (List (String × String)))
    (identityUserMap : Bool) (userMapMem : String → Bool)
    (liveStore archiveStore : String → Option JVal)
    (decode : String → JVal) (encode : JVal → String)
    (reviewKeys : List String) : List Line × List String :=
  reviewKeys.foldl (fun acc k =>
    let r := extractReviewStep f orgMap identityUserMap userMapMem
        liveStore archiveStore decode encode k
    (acc.1 ++ r.1, acc.2 ++ r.2)) ([], [])

/-! ### User extraction (`extractUsers`) -/

/-- `_.omit` restricted to top-level keys. -/
def omitKeys (ks : List String) (fs : List (String × JVal)) :
    List (String × JVal) :=
  fs.filter (fun p => !ks.contains p.1)

/-- `_.omit` with a two-segment `'a.b'` path: remove key `b` inside the
object bound at `a` (a non-object binding is left untouched). -/
def omitPath2 (a b : String) (fs : List (String × JVal)) :
    List (String × JVal) :=
  fs.map (fun p =>
    if p.1 == a then
      match p.2 with
      | .obj g => (p.1, JVal.obj (jsDelete b g))
      | v => (p.1, v)
    else p)

/-- `repoNamesSet.has(mention.owner + '/' + mention.repo)`: mentions in the
store carry string `owner`/`repo` fields; anything else template-coerces to
a name that is not in the seed set. -/
def mentionKept (repoNames : List String) (mention : JVal) : Bool :=
  match jsGet "owner" (objFields mention), jsGet "repo" (objFields mention) with
  | some (.str o), some (.str r) => repoNames.contains (o ++ "/" ++ r)
  | _, _ => false

/-- `Array.prototype.join('|')`. -/
def joinBar : List String → String
  | [] => ""
  | [u] => u
  | u :: us => u ++ "|" ++ joinBar us

/-- `mapKeys` body for `extraMentions`: split the composite key on `|`,
re-map the leading owner segment, re-join. -/
def remapMentionKey (orgMap : Option (List (String × String))) (k : String) :
    String :=
  match k.splitOn "|" with
  | [] => k
  | p0 :: rest => joinBar (mapOrg orgMap p0 :: rest)

/-- `mapValues` body for `extraMentions`: `mention.owner = mapOrg(owner)`. -/
def remapMentionOwner (orgMap : Option (List (String × String))) (m : JVal) :
    JVal :=
  match jsGet "owner" (objFields m) with
  | some (.str o) => .obj (jsAssign "owner" (.str (mapOrg orgMap o)) (objFields m))
  | _ => m

/-- One `extractUsers` iteration for a user-map entry
`oldUserKey → newUserKey`: the ghost target is skipped outright, a missing
source user is reported in `unknownUsers`, and otherwise the sanitised user
is written (split into per-section records in `--merge` mode).  Returns
`(lines written, unknownUsers pushes)`. -/
def extractUserEntry (merge : Bool) (f : String → String)
    (orgMap : Option (List (String × String))) (repoNames : List String)
    (reviewKeys : List String) (userStore : String → Option JVal)
    (oldUserKey newUserKey : String) : List Line × List String :=
  if newUserKey == "github:1" then ([], [])
  else match userStore oldUserKey with
  | none => ([], [oldUserKey])
  | some user0 =>
    let u1 := omitKeys ["lastUpdateTimestamp", "lastSeatAllocationTimestamp",
        "lastOwnershipsSyncTimestamp", "enterpriseLicenseAdmin", "core",
        "dashboardCache", "stripe", "enrollments", "notifications"]
        (objFields user0)
    let u2 := omitPath2 "settings" "dismissals" u1
    let u3 := omitPath2 "index" "subscriptions" u2
    let u4 := omitPath2 "index" "memberships" u3
    let u5 := match jsGet "index" u4 with
      | some (.obj idx) =>
        (match jsGet "extraMentions" idx with
         | some em =>
           if em.jsTruthy then
             let em2 := ((objFields em).filter (fun p => mentionKept repoNames p.2)).map
                 (fun p => (remapMentionKey orgMap p.1, remapMentionOwner orgMap p.2))
             let idx2 := if em2.isEmpty then jsDelete "extraMentions" idx
                         else jsAssign "extraMentions" (.obj em2) idx
             if idx2.isEmpty then jsDelete "index" u4
             else jsAssign "index" (.obj idx2) u4
           else u4
         | none => u4)
      | _ => u4
    let u6 := match jsGet "settings" u5 with
      | some (.obj st) =>
        (match jsGet "lastDashboardOrganization" st with
         | some (.str s) =>
           if s.isEmpty then u5
           else jsAssign "settings"
             (.obj (jsAssign "lastDashboardOrganization" (.str (mapOrg orgMap s)) st)) u5
         | _ => u5)
      | _ => u5
    let u7 := match jsGet "state" u6 with
      | some st =>
        if st.jsTruthy then
          let st2 := (objFields st).filter (fun p => reviewKeys.contains p.1)
          if st2.isEmpty then jsDelete "state" u6
          else jsAssign "state" (.obj st2) u6
        else u6
      | none => u6
    if merge then
      let bare := omitKeys ["onboarding", "settings", "state", "index"] u7
      let l1 := if bare.isEmpty then []
                else (writeItem f ("users/" ++ newUserKey) (some (.obj bare)) none).toList
      let l2 := ["onboarding", "settings", "state"].filterMap (fun k =>
        match jsGet k u7 with
        | some v => if v.jsIsEmpty then none
                    else writeItem f ("users/" ++ newUserKey ++ "/" ++ k) (some v) none
        | none => none)
      let l3 := match jsGet "index" u7 with
        | some (.obj idx) =>
          (match jsGet "extraMentions" idx with
           | some em =>
             if em.jsTruthy then
               (writeItem f ("users/" ++ newUserKey ++ "/index/extraMentions")
                 (some em) none).toList
             else []
           | none => [])
        | _ => []
      (l1 ++ l2 ++ l3, [])
    else
      ((writeItem f ("users/" ++ newUserKey) (some (.obj u7)) none).toList, [])

/-- `extractUsers` over every entry of the user map file (object entries in
order; the bounded fan-out is modelled sequentially). -/
def extractUsers (merge : Bool) (f : String → String)
    (orgMap : Option (List (String × String))) (repoNames : List String)
    (reviewKeys : List String) (userStore : String → Option JVal)
    (userMap : List (String × String)) : List Line × List String :=
  userMap.foldl (fun acc p =>
    let r := extractUserEntry merge f orgMap repoNames reviewKeys userStore p.1 p.2
    (acc.1 ++ r.1, acc.2 ++ r.2)) ([], [])

/-! ### The Loader's `processLine` -/

/-- A destination write or queue side effect issued by `processLine`. -/
inductive LoadEffect where
  | transactionMin (key : String) (value : JVal)
  | update (key : String) (value : JVal)
  | pullRequestSync (owner : String) (repo : String) (prNumber : JVal)
      (userKey : String)
  | fillUserProfile (userId : String) (userKey : String)

/-- `_.toLower` of a field that may be absent: lodash coerces `undefined`
to the empty string.  (The fields so read are strings in review cores.) -/
def jsToLowerF (v : Option JVal) : String :=
  match v with
  | some (.str s) => String.mk (s.data.map Char.toLower)
  | _ => ""

/-- The literal `users/github:` followed by at least one digit, capturing
the greedy digit run. -/
def parseUsersGithub : List Char → Option String
  | 'u' :: 's' :: 'e' :: 'r' :: 's' :: '/' :: 'g' :: 'i' :: 't' :: 'h' :: 'u'
      :: 'b' :: ':' :: rest =>
    if (rest.takeWhile Char.isDigit).isEmpty then none
    else some (String.mk (rest.takeWhile Char.isDigit))
  | _ => none

/-- `key.match(/users\/github:(\d+)/)`: leftmost match anywhere in the key,
returning the digit capture. -/
def userIdCapture : List Char → Option String
  | [] => none
  | c :: cs =>
    match parseUsersGithub (c :: cs) with
    | some ds => some ds
    | none => userIdCapture cs

/-- `processLine([key, value, flags])` of the Loader, for deployments
without an uploaded-files URL (the `tweakReview` placeholder reversal is
skipped there; it only rewrites comment bodies and adds no side effect).
Returns the destination writes followed by the queue side effect, or the
thrown `TypeError` when a `reviews/` record's value has no `core`
(`value.core.pullRequestId` dereferences `undefined`), or a `users/` key
has no `users/github:<digits>` segment (`key.match(...)` is `null`). -/
def processLine (adminUserKey : String) (key : String) (value : JVal)
    (flags : Option JVal) : Except String (List LoadEffect) :=
  let writes : List LoadEffect :=
    if value.jsIsEmpty then []
    else if List.isPrefixOf "system/oldestUsed".data key.data then
      [.transactionMin key value]
    else [.update key value]
  if List.isPrefixOf "reviews/".data key.data then
    match jsGet "core" (objFields value) with
    | none =>
      .error "TypeError: Cannot read properties of undefined (reading pullRequestId)"
    | some .null =>
      .error "TypeError: Cannot read properties of null (reading pullRequestId)"
    | some core =>
      .ok (writes ++ [.pullRequestSync (jsToLowerF (jsGet "ownerName" (objFields core)))
        (jsToLowerF (jsGet "repoName" (objFields core)))
        ((jsGet "pullRequestId" (objFields core)).getD .null) adminUserKey])
  else if List.isPrefixOf "users/".data key.data then
    match userIdCapture key.data with
    | some ds => .ok (writes ++ [.fillUserProfile ds adminUserKey])
    | none => .error "TypeError: Cannot read properties of null (reading '1')"
  else .ok writes

/-! ### Association-list lemmas -/

theorem jsGet_mem {k : String} {fs : List (String × JVal)} {v : JVal}
    (h : jsGet k fs = some v) : (k, v) ∈ fs := by
  unfold jsGet at h
  match hf : fs.find? (fun p => p.1 == k) with
  | none => rw [hf] at h; cases h
  | some p =>
    rw [hf] at h
    cases h
    have hm := List.mem_of_find?_eq_some hf
    have hp := List.find?_some hf
    have hk : p.1 = k := by simpa using hp
    cases p
    simpa [← hk] using hm

theorem jsGet_none {k : String} {fs : List (String × JVal)}
    (h : jsGet k fs = none) : ∀ p ∈ fs, p.1 ≠ k := by
  unfold jsGet at h
  intro p hp he
  rcases Option.map_eq_none'.mp h with hf
  have := List.find?_eq_none.mp hf p hp
  simp [he] at this

theorem mem_jsDelete {p : String × JVal} {k : String} {fs : List (String × JVal)} :
    p ∈ jsDelete k fs ↔ p ∈ fs ∧ p.1 ≠ k := by
  unfold jsDelete
  simp [List.mem_filter]

theorem jsDelete_sublist (k : String) (fs : List (String × JVal)) :
    (jsDelete k fs).Sublist fs :=
  List.filter_sublist fs

theorem nodup_keys_jsDelete {k : String} {fs : List (String × JVal)}
    (h : (keysOf fs).Nodup) : (keysOf (jsDelete k fs)).Nodup :=
  ((jsDelete_sublist k fs).map Prod.fst).nodup h

theorem mem_jsAssign {p : String × JVal} {k : String} {v : JVal}
    {fs : List (String × JVal)} (h : p ∈ jsAssign k v fs) :
    p = (k, v) ∨ (p ∈ fs ∧ p.1 ≠ k) := by
  unfold jsAssign at h
  split at h
  · rcases List.mem_map.mp h with ⟨q, hq, he⟩
    by_cases hqk : (q.1 == k) = true
    · left; rw [if_pos hqk] at he; exact he.symm
    · right
      rw [if_neg hqk] at he
      subst he
      exact ⟨hq, by simpa using hqk⟩
  · next hne =>
    rcases List.mem_append.mp h with hl | hr
    · right
      refine ⟨hl, fun he => hne ?_⟩
      refine List.any_eq_true.mpr ⟨p, hl, ?_⟩
      simp [he]
    · left; simpa using hr

theorem keysOf_jsAssign_of_mem {k : String} {v : JVal} {fs : List (String × JVal)}
    (h : fs.any (fun p => p.1 == k) = true) :
    keysOf (jsAssign k v fs) = keysOf fs := by
  unfold jsAssign
  rw [if_pos h]
  unfold keysOf
  rw [List.map_map]
  refine List.map_congr_left (fun p _ => ?_)
  by_cases hp : (p.1 == k) = true
  · simp only [Function.comp, hp, if_pos]
    exact (eq_of_beq hp).symm
  · simp only [Function.comp, hp, if_neg]
    simp

theorem nodup_keys_jsAssign {k : String} {v : JVal} {fs : List (String × JVal)}
    (h : (keysOf fs).Nodup) : (keysOf (jsAssign k v fs)).Nodup := by
  by_cases hex : fs.any (fun p => p.1 == k) = true
  · rw [keysOf_jsAssign_of_mem hex]; exact h
  · unfold jsAssign
    rw [if_neg hex]
    unfold keysOf
    rw [List.map_append]
    simp only [List.map_cons, List.map_nil]
    rw [List.nodup_append]
    refine ⟨h, List.nodup_singleton k, ?_⟩
    intro a ha hb
    simp only [List.mem_singleton] at hb
    subst hb
    rcases List.mem_map.mp ha with ⟨q, hq, he⟩
    refine absurd ?_ hex
    refine List.any_eq_true.mpr ⟨q, hq, ?_⟩
    simp [he]

theorem mem_key_unique {p q : String × JVal} {fs : List (String × JVal)}
    (hnd : (keysOf fs).Nodup) (hp : p ∈ fs) (hq : q ∈ fs) (he : p.1 = q.1) :
    p = q := by
  induction fs with
  | nil => cases hp
  | cons a fs ih =>
    have hnd' : a.1 ∉ List.map Prod.fst fs ∧ (List.map Prod.fst fs).Nodup := by
      simpa [keysOf, List.nodup_cons] using hnd
    rcases List.mem_cons.mp hp with hp1 | hp1 <;> rcases List.mem_cons.mp hq with hq1 | hq1
    · rw [hp1, hq1]
    · subst hp1
      have hmem : q.1 ∈ List.map Prod.fst fs := List.mem_map_of_mem Prod.fst hq1
      rw [← he] at hmem
      exact absurd hmem hnd'.1
    · subst hq1
      have hmem : p.1 ∈ List.map Prod.fst fs := List.mem_map_of_mem Prod.fst hp1
      rw [he] at hmem
      exact absurd hmem hnd'.1
    · exact ih (by simpa [keysOf] using hnd'.2) hp1 hq1

theorem jsAssign_self {k : String} {v : JVal} {fs : List (String × JVal)}
    (hnd : (keysOf fs).Nodup) (hm : (k, v) ∈ fs) : jsAssign k v fs = fs := by
  unfold jsAssign
  rw [if_pos (List.any_eq_true.mpr ⟨(k, v), hm, by simp⟩)]
  conv_rhs => rw [← List.map_id fs]
  refine List.map_congr_left (fun p hp => ?_)
  by_cases hpk : (p.1 == k) = true
  · have : p = (k, v) := mem_key_unique hnd hp hm (by simpa using hpk)
    simp [hpk, this]
  · simp [hpk]

theorem nodupKeys_iff {ks : List String} : nodupKeys ks = true ↔ ks.Nodup := by
  induction ks with
  | nil => simp [nodupKeys]
  | cons k ks ih =>
    rw [List.nodup_cons, ← ih]
    simp only [nodupKeys, Bool.and_eq_true, Bool.not_eq_true', List.contains_eq_any_beq,
      List.any_eq_false, beq_iff_eq]
    constructor
    · rintro ⟨h1, h2⟩
      exact ⟨fun hm => h1 k hm rfl, h2⟩
    · rintro ⟨h1, h2⟩
      exact ⟨fun x hx he => h1 (he ▸ hx), h2⟩


/-! ### String-grammar lemmas -/

theorem drop_len_takeWhile {α : Type} (p : α → Bool) (l : List α) :
    l.drop (l.takeWhile p).length = l.dropWhile p := by
  induction l with
  | nil => simp
  | cons a l ih =>
    by_cases h : p a = true
    · rw [List.takeWhile_cons_of_pos h, List.dropWhile_cons_of_pos h,
        List.length_cons, List.drop_succ_cons, ih]
    · rw [List.takeWhile_cons_of_neg (by simpa using h),
        List.dropWhile_cons_of_neg (by simpa using h)]
      rfl

theorem takeWhile_all_append {α : Type} {p : α → Bool} {l1 l2 : List α}
    (h : l1.all p = true) (h2 : ∀ c, l2.head? = some c → p c = false) :
    (l1 ++ l2).takeWhile p = l1 := by
  induction l1 with
  | nil =>
    cases l2 with
    | nil => rfl
    | cons c cs =>
      rw [List.nil_append]
      exact List.takeWhile_cons_of_neg (l := cs) (by simpa using h2 c rfl)
  | cons a l1 ih =>
    rw [List.all_cons, Bool.and_eq_true] at h
    rw [List.cons_append, List.takeWhile_cons_of_pos h.1, ih h.2]

theorem parseUserKey_some {cs r : List Char} (h : parseUserKey cs = some r) :
    ∃ ds, cs = githubLit ++ ds ++ r ∧ ds ≠ [] ∧ ds.all Char.isDigit = true := by
  unfold parseUserKey at h
  split at h
  · next rest =>
    split at h
    · cases h
    · next hds =>
      cases h
      refine ⟨rest.takeWhile Char.isDigit, ?_, fun hnil => hds (by simp [hnil]), ?_⟩
      · rw [githubLit]
        simp only [List.append_assoc, List.cons_append, List.nil_append]
        rw [drop_len_takeWhile, List.takeWhile_append_dropWhile]
      · exact List.all_eq_true.mpr (fun c hc => List.mem_takeWhile_imp hc)
  · cases h

theorem parseUserKey_append {ds r : List Char} (hds : ds ≠ [])
    (hall : ds.all Char.isDigit = true)
    (hr : ∀ c, r.head? = some c → c.isDigit = false) :
    parseUserKey (githubLit ++ ds ++ r) = some r := by
  have htw : ((ds ++ r).takeWhile Char.isDigit) = ds := takeWhile_all_append hall hr
  rw [githubLit]
  simp only [List.append_assoc, List.cons_append, List.nil_append]
  rw [parseUserKey, htw]
  rw [if_neg (by simpa using hds)]
  rw [List.drop_left]

theorem isUserKeyChars_iff {cs : List Char} :
    isUserKeyChars cs = true ↔
      ∃ ds, cs = githubLit ++ ds ∧ ds ≠ [] ∧ ds.all Char.isDigit = true := by
  constructor
  · intro h
    unfold isUserKeyChars at h
    split at h
    · next heq =>
      rcases parseUserKey_some heq with ⟨ds, hcs, hne, hall⟩
      exact ⟨ds, by simpa using hcs, hne, hall⟩
    · cases h
  · rintro ⟨ds, rfl, hne, hall⟩
    unfold isUserKeyChars
    have := parseUserKey_append (r := []) hne hall (fun c hc => by cases hc)
    rw [List.append_nil] at this
    rw [this]

theorem digit_not_ws {c : Char} (h : c.isDigit = true) : isJsWs c = false := by
  cases hw : isJsWs c
  · rfl
  · exfalso
    simp only [isJsWs, Bool.or_eq_true, beq_iff_eq] at hw
    rcases hw with ((((rfl | rfl) | rfl) | rfl) | rfl) | rfl <;> exact absurd h (by decide)

theorem digit_not_comma {c : Char} (h : c.isDigit = true) : (c == ',') = false := by
  cases he : c == ','
  · rfl
  · exact absurd h (by rw [show c = ',' from by simpa using he]; decide)

theorem userKey_chars {cs : List Char} (h : isUserKeyChars cs = true) :
    ∀ c ∈ cs, c ∈ githubLit ∨ c.isDigit = true := by
  rcases isUserKeyChars_iff.mp h with ⟨ds, rfl, _, hall⟩
  intro c hc
  rcases List.mem_append.mp hc with hg | hd
  · exact Or.inl hg
  · exact Or.inr (List.all_eq_true.mp hall c hd)

theorem userKey_sep_free {cs : List Char} (h : isUserKeyChars cs = true) :
    ∀ c ∈ cs, isJsWs c = false ∧ (c == ',') = false := by
  intro c hc
  rcases userKey_chars h c hc with hg | hd
  · rw [githubLit] at hg
    simp only [List.mem_cons, List.not_mem_nil, or_false] at hg
    rcases hg with rfl | rfl | rfl | rfl | rfl | rfl | rfl <;> exact ⟨by decide, by decide⟩
  · exact ⟨digit_not_ws hd, digit_not_comma hd⟩

theorem userKey_no_bar {cs : List Char} (h : isUserKeyChars cs = true) :
    '|' ∉ cs := by
  intro hb
  rcases userKey_chars h '|' hb with hg | hd
  · rw [githubLit] at hg
    simp at hg
  · exact absurd hd (by decide)

theorem userKey_no_comma {cs : List Char} (h : isUserKeyChars cs = true) :
    ',' ∉ cs := by
  intro hb
  rcases userKey_chars h ',' hb with hg | hd
  · rw [githubLit] at hg
    simp at hg
  · exact absurd hd (by decide)

theorem userKey_head {cs : List Char} (h : isUserKeyChars cs = true) :
    ∃ t, cs = 'g' :: t := by
  rcases isUserKeyChars_iff.mp h with ⟨ds, rfl, _, _⟩
  exact ⟨['i', 't', 'h', 'u', 'b', ':'] ++ ds, rfl⟩

theorem sepLen_none_of_head {c : Char} {cs : List Char}
    (hw : isJsWs c = false) (hc : (c == ',') = false) : sepLen (c :: cs) = none := by
  unfold sepLen
  rw [List.takeWhile_cons_of_neg (by simpa using hw)]
  simp only [List.length_nil, List.drop_zero]
  split
  · next rest heq =>
    exfalso
    have : c = ',' := (List.cons.injEq _ _ _ _).mp heq |>.1
    rw [this] at hc
    simp at hc
  · rfl

theorem sepLen_comma {cs : List Char} :
    sepLen (',' :: cs) = some (1 + (cs.takeWhile isJsWs).length) := by
  unfold sepLen
  rw [List.takeWhile_cons_of_neg (by decide)]
  simp

theorem sepLen_some_decomp {cs : List Char} {n : Nat} (h : sepLen cs = some n) :
    ∃ t1 rest2, cs = t1 ++ ',' :: rest2 ∧ t1.all isJsWs = true ∧
      n = t1.length + 1 + (rest2.takeWhile isJsWs).length ∧
      cs.drop n = rest2.drop (rest2.takeWhile isJsWs).length := by
  unfold sepLen at h
  split at h
  · next rest heq =>
    cases h
    rw [drop_len_takeWhile] at heq
    set t1 := cs.takeWhile isJsWs with ht1
    set t2 := rest.takeWhile isJsWs with ht2
    have hcs : cs = t1 ++ ',' :: rest := by
      conv_lhs => rw [← List.takeWhile_append_dropWhile (p := isJsWs) (l := cs)]
      rw [heq]
    refine ⟨t1, rest, hcs, ?_, rfl, ?_⟩
    · exact List.all_eq_true.mpr (fun c hc => List.mem_takeWhile_imp hc)
    · conv_lhs => rw [hcs]
      rw [List.drop_append_eq_append_drop]
      rw [List.drop_eq_nil_of_le (by omega : t1.length ≤ t1.length + 1 + t2.length),
        List.nil_append]
      have e2 : t1.length + 1 + t2.length - t1.length = t2.length + 1 := by omega
      rw [e2, List.drop_succ_cons]
  · cases h

theorem splitAux_nil (acc : List Char) :
    splitWsCommaWsAux acc [] = [acc.reverse] := by
  unfold splitWsCommaWsAux
  rfl

theorem splitAux_cons_sep {c : Char} {cs : List Char} {n : Nat}
    (h : sepLen (c :: cs) = some n) (acc : List Char) :
    splitWsCommaWsAux acc (c :: cs) =
      acc.reverse :: splitWsCommaWsAux [] ((c :: cs).drop n) := by
  rw [splitWsCommaWsAux]
  split
  · next n' hsep =>
    rw [hsep] at h
    cases h
    rfl
  · next hsep =>
    rw [hsep] at h
    cases h

theorem splitAux_cons_nosep {c : Char} {cs : List Char}
    (h : sepLen (c :: cs) = none) (acc : List Char) :
    splitWsCommaWsAux acc (c :: cs) = splitWsCommaWsAux (c :: acc) cs := by
  rw [splitWsCommaWsAux]
  split
  · next n' hsep =>
    rw [hsep] at h
    cases h
  · rfl

theorem splitAux_chunk {pre : List Char}
    (hpre : ∀ c ∈ pre, isJsWs c = false ∧ (c == ',') = false) :
    ∀ (acc tail : List Char),
      splitWsCommaWsAux acc (pre ++ tail) =
        splitWsCommaWsAux (pre.reverse ++ acc) tail := by
  induction pre with
  | nil => intro acc tail; simp
  | cons c pre ih =>
    intro acc tail
    rw [List.cons_append,
      splitAux_cons_nosep
        (sepLen_none_of_head (hpre c (by simp)).1 (hpre c (by simp)).2),
      ih (fun d hd => hpre d (by simp [hd]))]
    simp

theorem restIs_cons_inv {c : Char} {cs : List Char}
    (h : restIsSepIdStar (c :: cs) = true) :
    ∃ n r, sepLen (c :: cs) = some n ∧ parseUserKey ((c :: cs).drop n) = some r ∧
      restIsSepIdStar r = true := by
  rw [restIsSepIdStar] at h
  split at h
  · next n hsep =>
    split at h
    · next r hid => exact ⟨n, r, hsep, hid, h⟩
    · cases h
  · cases h

theorem restIs_cons_intro {c : Char} {cs : List Char} {n : Nat} {r : List Char}
    (h1 : sepLen (c :: cs) = some n) (h2 : parseUserKey ((c :: cs).drop n) = some r)
    (h3 : restIsSepIdStar r = true) : restIsSepIdStar (c :: cs) = true := by
  rw [restIsSepIdStar]
  split
  · next n' hsep =>
    rw [hsep] at h1
    cases h1
    split
    · next r' hid =>
      rw [hid] at h2
      cases h2
      exact h3
    · next hid =>
      rw [hid] at h2
      cases h2
  · next hsep =>
    rw [hsep] at h1
    cases h1

theorem checker_inv {cs : List Char} (h : isUserKeyListChars cs = true) :
    ∃ r, parseUserKey cs = some r ∧ restIsSepIdStar r = true := by
  unfold isUserKeyListChars at h
  split at h
  · next r hid => exact ⟨r, hid, h⟩
  · cases h

theorem checker_intro {cs r : List Char} (h1 : parseUserKey cs = some r)
    (h2 : restIsSepIdStar r = true) : isUserKeyListChars cs = true := by
  unfold isUserKeyListChars
  rw [h1]
  exact h2


theorem splitAux_ne_nil : ∀ (L : Nat) (acc cs : List Char), cs.length ≤ L →
    splitWsCommaWsAux acc cs ≠ [] := by
  intro L
  induction L with
  | zero =>
    intro acc cs hl
    have hnil : cs = [] := List.eq_nil_of_length_eq_zero (by omega)
    subst hnil
    rw [splitAux_nil]
    simp
  | succ L ih =>
    intro acc cs hl
    cases cs with
    | nil => rw [splitAux_nil]; simp
    | cons c cs' =>
      cases hsep : sepLen (c :: cs') with
      | some n => rw [splitAux_cons_sep hsep]; simp
      | none =>
        rw [splitAux_cons_nosep hsep]
        refine ih (c :: acc) cs' ?_
        simp only [List.length_cons] at hl
        omega

theorem ws_no_bar {t : List Char} (h : t.all isJsWs = true) : '|' ∉ t := by
  intro hb
  exact absurd (List.all_eq_true.mp h '|' hb) (by decide)

theorem checker_split_main : ∀ (L : Nat) (cs : List Char), cs.length ≤ L →
    isUserKeyListChars cs = true →
    (splitWsCommaWsAux [] cs).all (fun p => isUserKeyChars p) = true ∧ '|' ∉ cs := by
  intro L
  induction L with
  | zero =>
    intro cs hl hck
    have hnil : cs = [] := List.eq_nil_of_length_eq_zero (by omega)
    subst hnil
    exact absurd hck (by decide)
  | succ L ih =>
    intro cs hl hck
    rcases checker_inv hck with ⟨r, hid, hrest⟩
    rcases parseUserKey_some hid with ⟨ds, hcs, hne, hall⟩
    have hcs' : cs = (githubLit ++ ds) ++ r := by
      rw [hcs, List.append_assoc]
    have hpreKey : isUserKeyChars (githubLit ++ ds) = true :=
      isUserKeyChars_iff.mpr ⟨ds, rfl, hne, hall⟩
    have hsf : ∀ c ∈ githubLit ++ ds, isJsWs c = false ∧ (c == ',') = false :=
      userKey_sep_free hpreKey
    have hnb : '|' ∉ githubLit ++ ds := userKey_no_bar hpreKey
    have hprelen : 8 ≤ (githubLit ++ ds).length := by
      rw [List.length_append, githubLit]
      have : 1 ≤ ds.length := by
        cases ds with
        | nil => exact absurd rfl hne
        | cons a t => simp
      simp only [List.length_cons, List.length_nil]
      omega
    cases r with
    | nil =>
      rw [hcs', List.append_nil] at *
      constructor
      · rw [show githubLit ++ ds = (githubLit ++ ds) ++ [] by simp,
          splitAux_chunk hsf [] []]
        rw [List.append_nil, splitAux_nil]
        simp only [List.reverse_reverse, List.all_cons, List.all_nil]
        simp [hpreKey]
      · exact hnb
    | cons c r' =>
      rcases restIs_cons_inv hrest with ⟨n, r2, hsep, hid2, hrest2⟩
      rcases sepLen_some_decomp hsep with ⟨t1, rest2, hdecomp, ht1ws, hn, hdrop⟩
      have hck2 : isUserKeyListChars ((c :: r').drop n) = true :=
        checker_intro hid2 hrest2
      have hlen2 : ((c :: r').drop n).length ≤ L := by
        have h1 : cs.length = (githubLit ++ ds).length + (c :: r').length := by
          rw [hcs']
          simp only [List.length_append]
        simp only [List.length_drop] at *
        simp only [List.length_cons] at *
        omega
      have hih := ih ((c :: r').drop n) hlen2 hck2
      constructor
      · rw [hcs', splitAux_chunk hsf [] (c :: r'), List.append_nil,
          splitAux_cons_sep hsep]
        rw [List.reverse_reverse]
        simp only [List.all_cons, Bool.and_eq_true]
        exact ⟨hpreKey, hih.1⟩
      · rw [hcs']
        intro hb
        rcases List.mem_append.mp hb with hb1 | hb2
        · exact hnb hb1
        · -- c :: r' = t1 ++ ',' :: rest2, rest2 = takeWhile ws ++ (drop n part)
          rw [hdecomp] at hb2
          rcases List.mem_append.mp hb2 with hb3 | hb4
          · exact ws_no_bar ht1ws hb3
          · rcases List.mem_cons.mp hb4 with hb5 | hb6
            · exact absurd hb5 (by decide)
            · have hrest2eq : rest2 = rest2.takeWhile isJsWs ++ (c :: r').drop n := by
                rw [hdrop, drop_len_takeWhile, List.takeWhile_append_dropWhile]
              rw [hrest2eq] at hb6
              rcases List.mem_append.mp hb6 with hb7 | hb8
              · refine ws_no_bar ?_ hb7
                exact List.all_eq_true.mpr (fun x hx => List.mem_takeWhile_imp hx)
              · exact hih.2 hb8

theorem checker_split {cs : List Char} (h : isUserKeyListChars cs = true) :
    (splitWsCommaWsAux [] cs).all (fun p => isUserKeyChars p) = true :=
  (checker_split_main cs.length cs le_rfl h).1

theorem checker_no_bar {cs : List Char} (h : isUserKeyListChars cs = true) :
    '|' ∉ cs :=
  (checker_split_main cs.length cs le_rfl h).2


theorem userKey_parse {cs : List Char} (h : isUserKeyChars cs = true) :
    parseUserKey cs = some [] := by
  unfold isUserKeyChars at h
  split at h
  · next heq => exact heq
  · cases h

theorem restIs_nil : restIsSepIdStar [] = true := by
  rw [restIsSepIdStar]

theorem joinComma_cons_data {u v : String} {vs : List String} :
    (joinComma (u :: v :: vs)).data = u.data ++ ',' :: (joinComma (v :: vs)).data := by
  show (u ++ "," ++ joinComma (v :: vs)).data = _
  rw [String.data_append, String.data_append]
  simp

theorem joinComma_head {u : String} (vs : List String)
    (hu : isUserKeyChars u.data = true) :
    ∃ t, (joinComma (u :: vs)).data = 'g' :: t := by
  rcases userKey_head hu with ⟨t0, ht0⟩
  cases vs with
  | nil => exact ⟨t0, ht0⟩
  | cons v vs' =>
    rw [joinComma_cons_data, ht0]
    exact ⟨t0 ++ ',' :: (joinComma (v :: vs')).data, rfl⟩

theorem split_join : ∀ (us : List String), us ≠ [] →
    (∀ u ∈ us, isUserKeyChars u.data = true) →
    splitWsCommaWsAux [] (joinComma us).data = us.map String.data := by
  intro us
  induction us with
  | nil => intro h; exact absurd rfl h
  | cons u us ih =>
    intro _ hall
    have hu : isUserKeyChars u.data = true := hall u (by simp)
    cases us with
    | nil =>
      show splitWsCommaWsAux [] u.data = [u.data]
      rw [show u.data = u.data ++ [] by simp, splitAux_chunk (userKey_sep_free hu) [] []]
      rw [List.append_nil, splitAux_nil, List.reverse_reverse]
      simp
    | cons v vs =>
      rw [joinComma_cons_data,
        splitAux_chunk (userKey_sep_free hu) [] (',' :: (joinComma (v :: vs)).data)]
      rcases joinComma_head vs (hall v (by simp)) with ⟨t, ht⟩
      have hsep : sepLen (',' :: (joinComma (v :: vs)).data) = some 1 := by
        rw [sepLen_comma, ht, List.takeWhile_cons_of_neg (by decide)]
        simp
      rw [splitAux_cons_sep hsep]
      simp only [List.append_nil, List.reverse_reverse, List.drop_succ_cons,
        List.drop_zero]
      rw [ih (by simp) (fun x hx => hall x (by simp [hx]))]
      rfl

theorem checker_join : ∀ (us : List String), us ≠ [] →
    (∀ u ∈ us, isUserKeyChars u.data = true) →
    isUserKeyListChars (joinComma us).data = true := by
  intro us
  induction us with
  | nil => intro h; exact absurd rfl h
  | cons u us ih =>
    intro _ hall
    have hu : isUserKeyChars u.data = true := hall u (by simp)
    cases us with
    | nil => exact checker_intro (userKey_parse hu) restIs_nil
    | cons v vs =>
      rw [joinComma_cons_data]
      rcases isUserKeyChars_iff.mp hu with ⟨ds, hud, hne, hallds⟩
      have hid : parseUserKey (u.data ++ ',' :: (joinComma (v :: vs)).data) =
          some (',' :: (joinComma (v :: vs)).data) := by
        rw [hud, List.append_assoc]
        exact parseUserKey_append hne hallds (fun c hc => by cases hc; decide)
      rcases joinComma_head vs (hall v (by simp)) with ⟨t, ht⟩
      have hsep : sepLen (',' :: (joinComma (v :: vs)).data) = some 1 := by
        rw [sepLen_comma, ht, List.takeWhile_cons_of_neg (by decide)]
        simp
      have hchk := ih (by simp) (fun x hx => hall x (by simp [hx]))
      rcases checker_inv hchk with ⟨r2, hid2, hrest2⟩
      have hrest : restIsSepIdStar (',' :: (joinComma (v :: vs)).data) = true := by
        refine restIs_cons_intro hsep ?_ hrest2
        simpa using hid2
      exact checker_intro hid hrest

theorem uniqFirstAux_mem {l : List String} :
    ∀ {seen : List String} {x : String},
      x ∈ uniqFirstAux seen l → x ∈ l ∧ x ∉ seen := by
  induction l with
  | nil => intro seen x h; cases h
  | cons a l ih =>
    intro seen x h
    unfold uniqFirstAux at h
    split at h
    · rcases ih h with ⟨h1, h2⟩
      exact ⟨by simp [h1], h2⟩
    · next hseen =>
      rcases List.mem_cons.mp h with rfl | h1
      · refine ⟨by simp, fun hx => ?_⟩
        rw [List.contains_iff_exists_mem_beq] at hseen
        exact hseen ⟨x, hx, by simp⟩
      · rcases ih h1 with ⟨h2, h3⟩
        exact ⟨by simp [h2], fun hx => h3 (by simp [hx])⟩

theorem uniqFirstAux_nodup : ∀ (l seen : List String),
    (uniqFirstAux seen l).Nodup := by
  intro l
  induction l with
  | nil => intro seen; exact List.nodup_nil
  | cons a l ih =>
    intro seen
    unfold uniqFirstAux
    split
    · exact ih seen
    · refine List.nodup_cons.mpr ⟨fun hmem => ?_, ih (a :: seen)⟩
      exact (uniqFirstAux_mem hmem).2 (by simp)

theorem uniqFirstAux_of_nodup : ∀ {l seen : List String}, l.Nodup →
    (∀ x ∈ l, x ∉ seen) → uniqFirstAux seen l = l := by
  intro l
  induction l with
  | nil => intro seen _ _; rfl
  | cons a l ih =>
    intro seen hnd hd
    unfold uniqFirstAux
    have hc : seen.contains a = false := by
      cases hcb : seen.contains a
      · rfl
      · exfalso
        rcases List.contains_iff_exists_mem_beq.mp hcb with ⟨a2, ha2, he⟩
        exact hd a (by simp) ((eq_of_beq he) ▸ ha2)
    rw [hc]
    simp only [Bool.false_eq_true, if_false]
    rw [List.nodup_cons] at hnd
    congr 1
    refine ih hnd.2 (fun x hx => ?_)
    intro hmem
    rcases List.mem_cons.mp hmem with rfl | hmem2
    · exact hnd.1 hx
    · exact hd x (by simp [hx]) hmem2

theorem uniqFirst_mem {l : List String} {x : String} (h : x ∈ uniqFirst l) :
    x ∈ l :=
  (uniqFirstAux_mem h).1

theorem uniqFirst_nodup (l : List String) : (uniqFirst l).Nodup :=
  uniqFirstAux_nodup l []

theorem uniqFirst_of_nodup {l : List String} (h : l.Nodup) : uniqFirst l = l :=
  uniqFirstAux_of_nodup h (by simp)

theorem uniqFirst_ne_nil {l : List String} (h : l ≠ []) : uniqFirst l ≠ [] := by
  cases l with
  | nil => exact absurd rfl h
  | cons a l =>
    unfold uniqFirst uniqFirstAux
    rw [show ([] : List String).contains a = false from rfl]
    simp



theorem not_userKey_of_comma {cs : List Char} (h : ',' ∈ cs) :
    isUserKeyChars cs = false := by
  cases hk : isUserKeyChars cs
  · rfl
  · exact absurd h (userKey_no_comma hk)

theorem not_userKey_of_bar {cs : List Char} (h : '|' ∈ cs) :
    isUserKeyChars cs = false := by
  cases hk : isUserKeyChars cs
  · rfl
  · exact absurd h (userKey_no_bar hk)

theorem not_checker_of_bar {cs : List Char} (h : '|' ∈ cs) :
    isUserKeyListChars cs = false := by
  cases hk : isUserKeyListChars cs
  · rfl
  · exact absurd h (checker_no_bar hk)

theorem mapUserString_userKey {f : String → String} {s : String}
    (h : isUserKeyChars s.data = true) : mapUserString f s = f s := by
  unfold mapUserString
  rw [if_pos h]

theorem mapUserString_list {f : String → String} {s : String}
    (h1 : isUserKeyChars s.data = false) (h2 : isUserKeyListChars s.data = true) :
    mapUserString f s =
      joinComma (uniqFirst ((splitWsCommaWsAux [] s.data).map
        (fun p => f (String.mk p)))) := by
  unfold mapUserString
  rw [h1, h2]
  simp

theorem mapUserString_bar {f : String → String} {s : String} {pk : String × String}
    (h1 : isUserKeyChars s.data = false) (h2 : isUserKeyListChars s.data = false)
    (h3 : barSuffixSplit s = some pk) :
    mapUserString f s = pk.1 ++ "|" ++ f pk.2 := by
  unfold mapUserString
  rw [h1, h2, h3]
  simp

theorem mapUserString_plain {f : String → String} {s : String}
    (h1 : isUserKeyChars s.data = false) (h2 : isUserKeyListChars s.data = false)
    (h3 : barSuffixSplit s = none) :
    mapUserString f s = s := by
  unfold mapUserString
  rw [h1, h2, h3]
  simp

theorem barSuffixSplit_some {s pre key : String}
    (h : barSuffixSplit s = some (pre, key)) :
    s.data = pre.data ++ '|' :: key.data ∧ isUserKeyChars key.data = true := by
  unfold barSuffixSplit at h
  split at h
  · cases h
  · next hne =>
    split at h
    · next hpat =>
      rw [Option.some.injEq, Prod.mk.injEq] at h
      obtain ⟨hpre, hkey⟩ := h
      have hsplit1 : s.data.reverse =
          s.data.reverse.takeWhile Char.isDigit ++
            s.data.reverse.dropWhile Char.isDigit :=
        (List.takeWhile_append_dropWhile Char.isDigit s.data.reverse).symm
      have hbody : s.data.reverse.drop
          (s.data.reverse.takeWhile Char.isDigit).length =
          s.data.reverse.dropWhile Char.isDigit :=
        drop_len_takeWhile Char.isDigit s.data.reverse
      have hsplit2 : s.data.reverse.dropWhile Char.isDigit =
          [':', 'b', 'u', 'h', 't', 'i', 'g', '|'] ++
            (s.data.reverse.drop
              (s.data.reverse.takeWhile Char.isDigit).length).drop 8 := by
        conv_lhs =>
          rw [← List.take_append_drop 8 (s.data.reverse.dropWhile Char.isDigit)]
        rw [← hbody, hpat]
      have hdata : s.data =
          ((s.data.reverse.drop
            (s.data.reverse.takeWhile Char.isDigit).length).drop 8).reverse ++
            '|' :: (githubLit ++
              (s.data.reverse.takeWhile Char.isDigit).reverse) := by
        conv_lhs => rw [← List.reverse_reverse s.data, hsplit1, hsplit2]
        rw [List.reverse_append, List.reverse_append]
        simp [githubLit]
      constructor
      · rw [← hpre, ← hkey]
        simpa [githubLit] using hdata
      · rw [← hkey]
        refine isUserKeyChars_iff.mpr
          ⟨(s.data.reverse.takeWhile Char.isDigit).reverse, by simp [githubLit], ?_, ?_⟩
        · intro hnil
          rw [List.isEmpty_iff] at hne
          exact hne (by simpa using congrArg List.reverse hnil)
        · exact List.all_eq_true.mpr
            (fun c hc => List.mem_takeWhile_imp (List.mem_reverse.mp hc))
    · cases h

theorem barSuffixSplit_build (pre : String) {ds : List Char} (hne : ds ≠ [])
    (hall : ds.all Char.isDigit = true) :
    barSuffixSplit (String.mk (pre.data ++ '|' :: (githubLit ++ ds))) =
      some (pre, String.mk (githubLit ++ ds)) := by
  unfold barSuffixSplit
  have hdata : (String.mk (pre.data ++ '|' :: (githubLit ++ ds))).data =
      pre.data ++ '|' :: (githubLit ++ ds) := rfl
  rw [hdata]
  have hrev : (pre.data ++ '|' :: (githubLit ++ ds)).reverse =
      ds.reverse ++ ([':', 'b', 'u', 'h', 't', 'i', 'g', '|'] ++
        pre.data.reverse) := by
    rw [List.reverse_append]
    simp [githubLit]
  rw [hrev]
  have htw : (ds.reverse ++ ([':', 'b', 'u', 'h', 't', 'i', 'g', '|'] ++
      pre.data.reverse)).takeWhile Char.isDigit = ds.reverse := by
    refine takeWhile_all_append ?_ (fun c hc => by cases hc; decide)
    exact List.all_eq_true.mpr
      (fun c hc => List.all_eq_true.mp hall c (List.mem_reverse.mp hc))
  rw [htw]
  have hnemp : ds.reverse.isEmpty = false := by
    cases hE : ds.reverse.isEmpty
    · rfl
    · exfalso
      rw [List.isEmpty_iff] at hE
      exact hne (by simpa using congrArg List.reverse hE)
  rw [hnemp]
  simp only [Bool.false_eq_true, if_false]
  have hdrop : (ds.reverse ++ ([':', 'b', 'u', 'h', 't', 'i', 'g', '|'] ++
      pre.data.reverse)).drop ds.reverse.length =
      [':', 'b', 'u', 'h', 't', 'i', 'g', '|'] ++ pre.data.reverse :=
    List.drop_left _ _
  rw [hdrop]
  rw [if_pos (by
    rw [show (8 : Nat) =
        ([':', 'b', 'u', 'h', 't', 'i', 'g', '|'] : List Char).length from rfl]
    exact List.take_left _ _)]
  rw [show ((([':', 'b', 'u', 'h', 't', 'i', 'g', '|'] : List Char) ++
      pre.data.reverse).drop 8) = pre.data.reverse from rfl]
  rw [List.reverse_reverse, List.reverse_reverse]
  rfl


theorem mapUserString_id_fixed (f : String → String) (hf : IdPres f) (s : String) :
    mapUserString (fun x => x) (mapUserString f s) = mapUserString f s := by
  by_cases h1 : isUserKeyChars s.data = true
  · rw [mapUserString_userKey h1]
    exact mapUserString_userKey (hf s h1)
  · rw [Bool.not_eq_true] at h1
    by_cases h2 : isUserKeyListChars s.data = true
    · rw [mapUserString_list h1 h2]
      have hall : ∀ u ∈ uniqFirst ((splitWsCommaWsAux [] s.data).map
          (fun p => f (String.mk p))), isUserKeyChars u.data = true := by
        intro u hu
        rcases List.mem_map.mp (uniqFirst_mem hu) with ⟨p, hpmem, rfl⟩
        exact hf (String.mk p) (List.all_eq_true.mp (checker_split h2) p hpmem)
      have husne : uniqFirst ((splitWsCommaWsAux [] s.data).map
          (fun p => f (String.mk p))) ≠ [] := by
        refine uniqFirst_ne_nil (fun hmap => ?_)
        exact splitAux_ne_nil s.data.length [] s.data le_rfl (List.map_eq_nil.mp hmap)
      have husnd := uniqFirst_nodup ((splitWsCommaWsAux [] s.data).map
        (fun p => f (String.mk p)))
      rcases hcase : uniqFirst ((splitWsCommaWsAux [] s.data).map
        (fun p => f (String.mk p))) with _ | ⟨u, vs⟩
      · exact absurd hcase husne
      · rw [hcase] at hall husnd
        cases vs with
        | nil =>
          have hu : isUserKeyChars u.data = true := hall u (by simp)
          show mapUserString (fun x => x) u = u
          rw [mapUserString_userKey hu]
        | cons v vs' =>
          have hcomma : ',' ∈ (joinComma (u :: v :: vs')).data := by
            rw [joinComma_cons_data]
            exact List.mem_append.mpr (Or.inr (by simp))
          have b1 := not_userKey_of_comma hcomma
          have b2 := checker_join (u :: v :: vs') (by simp) hall
          rw [mapUserString_list b1 b2]
          rw [split_join (u :: v :: vs') (by simp) hall]
          have hmapid : List.map (fun p => (fun x : String => x) (String.mk p))
              (List.map String.data (u :: v :: vs')) = u :: v :: vs' := by
            rw [List.map_map]
            have hfn : ((fun p => (fun x : String => x) (String.mk p)) ∘ String.data) =
                (id : String → String) := by
              funext x
              rfl
            rw [hfn, List.map_id]
          rw [hmapid, uniqFirst_of_nodup husnd]
    · rw [Bool.not_eq_true] at h2
      cases hbar : barSuffixSplit s with
      | none =>
        rw [mapUserString_plain h1 h2 hbar]
        rw [mapUserString_plain h1 h2 hbar]
      | some pk =>
        obtain ⟨pre, key⟩ := pk
        rcases barSuffixSplit_some hbar with ⟨hsdata, hkeyid⟩
        have hfkey : isUserKeyChars (f key).data = true := hf key hkeyid
        rcases isUserKeyChars_iff.mp hfkey with ⟨ds1, hfdata, hne1, hall1⟩
        rw [mapUserString_bar h1 h2 hbar]
        have hresdata : (pre ++ "|" ++ f key).data =
            pre.data ++ '|' :: (githubLit ++ ds1) := by
          rw [String.data_append, String.data_append, hfdata]
          simp
        have hb1 : isUserKeyChars (pre ++ "|" ++ f key).data = false := by
          refine not_userKey_of_bar ?_
          rw [hresdata]
          exact List.mem_append.mpr (Or.inr (by simp))
        have hb2 : isUserKeyListChars (pre ++ "|" ++ f key).data = false := by
          refine not_checker_of_bar ?_
          rw [hresdata]
          exact List.mem_append.mpr (Or.inr (by simp))
        have heta : pre ++ "|" ++ f key =
            String.mk (pre.data ++ '|' :: (githubLit ++ ds1)) := by
          rw [← hresdata]
        have hb3 : barSuffixSplit (pre ++ "|" ++ f key) = some (pre, f key) := by
          rw [heta, barSuffixSplit_build pre hne1 hall1]
          rw [Option.some.injEq, Prod.mk.injEq]
          refine ⟨rfl, ?_⟩
          rw [← hfdata]
        rw [mapUserString_bar hb1 hb2 hb3]


/-! ### Structural predicate lemmas -/

theorem WFL_iff {fs : List (String × JVal)} :
    WFL fs = true ↔ ∀ p ∈ fs, WFJ p.2 = true := by
  induction fs with
  | nil => simp [WFL]
  | cons p ps ih =>
    rw [WFL, Bool.and_eq_true, ih]
    constructor
    · rintro ⟨h1, h2⟩ q hq
      rcases List.mem_cons.mp hq with rfl | hq2
      · exact h1
      · exact h2 q hq2
    · intro h
      exact ⟨h p (by simp), fun q hq => h q (by simp [hq])⟩

theorem WFJ_obj {fs : List (String × JVal)} :
    WFJ (.obj fs) = true ↔ (keysOf fs).Nodup ∧ WFL fs = true := by
  rw [WFJ, Bool.and_eq_true, nodupKeys_iff]

theorem noEmptyChildrenL_iff {fs : List (String × JVal)} :
    noEmptyChildrenL fs = true ↔
      ∀ p ∈ fs, p.2.isEmptyObj = false ∧ noEmptyChildren p.2 = true := by
  induction fs with
  | nil => simp [noEmptyChildrenL]
  | cons p ps ih =>
    rw [noEmptyChildrenL, Bool.and_eq_true, Bool.and_eq_true, ih]
    constructor
    · rintro ⟨⟨h1, h2⟩, h3⟩ q hq
      rcases List.mem_cons.mp hq with rfl | hq2
      · exact ⟨by simpa using h1, h2⟩
      · exact h3 q hq2
    · intro h
      exact ⟨⟨by simpa using (h p (by simp)).1, (h p (by simp)).2⟩,
        fun q hq => h q (by simp [hq])⟩

theorem noEmptyChildren_obj {fs : List (String × JVal)} :
    noEmptyChildren (.obj fs) = noEmptyChildrenL fs := by
  rw [noEmptyChildren]

theorem idFixedStrsL_iff {fs : List (String × JVal)} :
    idFixedStrsL fs = true ↔
      ∀ p ∈ fs, mapUserString (fun x => x) p.1 = p.1 ∧ idFixedStrs p.2 = true := by
  induction fs with
  | nil => simp [idFixedStrsL]
  | cons p ps ih =>
    rw [idFixedStrsL, Bool.and_eq_true, Bool.and_eq_true, ih]
    constructor
    · rintro ⟨⟨h1, h2⟩, h3⟩ q hq
      rcases List.mem_cons.mp hq with rfl | hq2
      · exact ⟨by simpa using h1, h2⟩
      · exact h3 q hq2
    · intro h
      refine ⟨⟨?_, (h p (by simp)).2⟩, fun q hq => h q (by simp [hq])⟩
      have := (h p (by simp)).1
      simp [this]

theorem idFixedStrs_obj {fs : List (String × JVal)} :
    idFixedStrs (.obj fs) = idFixedStrsL fs := by
  rw [idFixedStrs]

theorem depthJ_obj {fs : List (String × JVal)} :
    depthJ (.obj fs) = 1 + depthL fs := by
  rw [depthJ]

theorem depthJ_mem_le {p : String × JVal} {fs : List (String × JVal)}
    (hp : p ∈ fs) : depthJ p.2 ≤ depthL fs := by
  induction fs with
  | nil => cases hp
  | cons q ps ih =>
    rw [depthL]
    rcases List.mem_cons.mp hp with rfl | hp2
    · exact le_max_left _ _
    · exact le_trans (ih hp2) (le_max_right _ _)

theorem depthL_le_of_forall {fs : List (String × JVal)} {D : Nat}
    (h : ∀ p ∈ fs, depthJ p.2 ≤ D) : depthL fs ≤ D := by
  induction fs with
  | nil => rw [depthL]; omega
  | cons q ps ih =>
    rw [depthL]
    exact max_le (h q (by simp)) (ih (fun p hp => h p (by simp [hp])))


/-! ### The rewriter loop invariant -/

theorem foldl_mapStep_invariant (f : String → String) (rec : JVal → JVal) (D : Nat)
    (hrec : ∀ w, WFJ w = true → depthJ w ≤ D →
      WFJ (rec w) = true ∧ noEmptyChildren (rec w) = true ∧
      depthJ (rec w) ≤ depthJ w ∧ (IdPres f → idFixedStrs (rec w) = true)) :
    ∀ (ks : List String) (cur : List (String × JVal)),
      (keysOf cur).Nodup →
      (∀ p ∈ cur, WFJ p.2 = true ∧ depthJ p.2 ≤ D) →
      (∀ p ∈ cur, p.1 ∉ ks →
        p.2.isEmptyObj = false ∧ noEmptyChildren p.2 = true ∧
        (IdPres f → mapUserString (fun x => x) p.1 = p.1 ∧ idFixedStrs p.2 = true)) →
      (keysOf (ks.foldl (mapStep rec f) cur)).Nodup ∧
      (∀ p ∈ ks.foldl (mapStep rec f) cur,
        (WFJ p.2 = true ∧ depthJ p.2 ≤ D) ∧
        (p.2.isEmptyObj = false ∧ noEmptyChildren p.2 = true ∧
         (IdPres f → mapUserString (fun x => x) p.1 = p.1 ∧
           idFixedStrs p.2 = true))) := by
  intro ks
  induction ks with
  | nil =>
    intro cur hnd hwd hgood
    rw [List.foldl_nil]
    exact ⟨hnd, fun p hp => ⟨hwd p hp, hgood p hp (by simp)⟩⟩
  | cons k ks ih =>
    intro cur hnd hwd hgood
    rw [List.foldl_cons]
    cases hget : jsGet k cur with
    | none =>
      have hstep : mapStep rec f cur k = cur := by
        unfold mapStep
        rw [hget]
      rw [hstep]
      refine ih cur hnd hwd (fun p hp hpk => ?_)
      by_cases hk : p.1 = k
      · exact absurd hk (jsGet_none hget p hp)
      · refine hgood p hp (fun hin => ?_)
        rcases List.mem_cons.mp hin with heq | hin2
        · exact hk heq
        · exact hpk hin2
    | some v0 =>
      have hv0mem : (k, v0) ∈ cur := jsGet_mem hget
      have hv0wd := hwd (k, v0) hv0mem
      have hrecv := hrec v0 hv0wd.1 hv0wd.2
      have hstep : mapStep rec f cur k =
          (if (rec v0).isEmptyObj = true then
            jsDelete k (if k = mapUserString f k then cur else jsDelete k cur)
          else jsAssign (mapUserString f k) (rec v0)
            (if k = mapUserString f k then cur else jsDelete k cur)) := by
        unfold mapStep
        rw [hget]
      rw [hstep]
      generalize hc1 : (if k = mapUserString f k then cur else jsDelete k cur) = cur1
      have hcur1nd : (keysOf cur1).Nodup := by
        rw [← hc1]
        split
        · exact hnd
        · exact nodup_keys_jsDelete hnd
      have hcur1mem : ∀ p ∈ cur1, p ∈ cur ∧ (k ≠ mapUserString f k → p.1 ≠ k) := by
        intro p hp
        rw [← hc1] at hp
        by_cases hkeq : k = mapUserString f k
        · rw [if_pos hkeq] at hp
          exact ⟨hp, fun h => absurd hkeq h⟩
        · rw [if_neg hkeq] at hp
          exact ⟨(mem_jsDelete.mp hp).1, fun _ => (mem_jsDelete.mp hp).2⟩
      by_cases hemp : (rec v0).isEmptyObj = true
      · rw [if_pos hemp]
        refine ih _ (nodup_keys_jsDelete hcur1nd) ?_ ?_
        · intro p hp
          exact hwd p (hcur1mem p (mem_jsDelete.mp hp).1).1
        · intro p hp hpk
          have hmem := mem_jsDelete.mp hp
          refine hgood p (hcur1mem p hmem.1).1 (fun hin => ?_)
          rcases List.mem_cons.mp hin with heq | hin2
          · exact hmem.2 heq
          · exact hpk hin2
      · rw [if_neg hemp]
        refine ih _ (nodup_keys_jsAssign hcur1nd) ?_ ?_
        · intro p hp
          rcases mem_jsAssign hp with heqp | ⟨hp2, _⟩
          · rw [heqp]
            exact ⟨hrecv.1, le_trans hrecv.2.2.1 hv0wd.2⟩
          · exact hwd p (hcur1mem p hp2).1
        · intro p hp hpk
          rcases mem_jsAssign hp with heqp | ⟨hp2, hpne⟩
          · rw [heqp]
            refine ⟨by simpa using hemp, hrecv.2.1, fun hip => ?_⟩
            exact ⟨mapUserString_id_fixed f hip k, hrecv.2.2.2 hip⟩
          · refine hgood p (hcur1mem p hp2).1 (fun hin => ?_)
            rcases List.mem_cons.mp hin with heq | hin2
            · by_cases hkeq : k = mapUserString f k
              · exact hpne (heq.trans hkeq)
              · exact (hcur1mem p hp2).2 hkeq heq
            · exact hpk hin2


/-- Output quality of the rewriter: it preserves well-formedness, never
increases depth, prunes every emptied object from its parent, and (when the
mapping sends identifiers to identifiers) leaves only strings and keys that
the identity pass maps to themselves. -/
theorem mapAllUserKeysF_good (f : String → String) :
    ∀ (n : Nat) (v : JVal), depthJ v < n → WFJ v = true →
      WFJ (mapAllUserKeysF f n v) = true ∧
      noEmptyChildren (mapAllUserKeysF f n v) = true ∧
      depthJ (mapAllUserKeysF f n v) ≤ depthJ v ∧
      (IdPres f → idFixedStrs (mapAllUserKeysF f n v) = true) := by
  intro n
  induction n with
  | zero => intro v hd _; exact absurd hd (Nat.not_lt_zero _)
  | succ n ih =>
    intro v hd hwf
    match v with
    | .null =>
      exact ⟨by simp [mapAllUserKeysF, WFJ], by simp [mapAllUserKeysF, noEmptyChildren],
        by simp [mapAllUserKeysF], fun _ => by simp [mapAllUserKeysF, idFixedStrs]⟩
    | .bool b =>
      exact ⟨by simp [mapAllUserKeysF, WFJ], by simp [mapAllUserKeysF, noEmptyChildren],
        by simp [mapAllUserKeysF], fun _ => by simp [mapAllUserKeysF, idFixedStrs]⟩
    | .num m =>
      exact ⟨by simp [mapAllUserKeysF, WFJ], by simp [mapAllUserKeysF, noEmptyChildren],
        by simp [mapAllUserKeysF], fun _ => by simp [mapAllUserKeysF, idFixedStrs]⟩
    | .str s =>
      have heq : mapAllUserKeysF f (n + 1) (.str s) = .str (mapUserString f s) := rfl
      rw [heq]
      refine ⟨by simp [WFJ], by simp [noEmptyChildren], by simp [depthJ], fun hip => ?_⟩
      have := mapUserString_id_fixed f hip s
      simp [idFixedStrs, this]
    | .obj fs =>
      have heq : mapAllUserKeysF f (n + 1) (.obj fs) =
          .obj ((keysOf fs).foldl (mapStep (fun w => mapAllUserKeysF f n w) f) fs) := rfl
      rw [heq]
      have hD : depthL fs < n := by
        rw [depthJ_obj] at hd
        omega
      obtain ⟨hwfo, hobj⟩ := WFJ_obj.mp hwf
      have hinv := foldl_mapStep_invariant f (fun w => mapAllUserKeysF f n w)
        (depthL fs)
        (fun w hw hdw => ih w (by omega) hw)
        (keysOf fs) fs hwfo
        (fun p hp => ⟨WFL_iff.mp hobj p hp, depthJ_mem_le hp⟩)
        (fun p hp hpk => absurd
          (show p.1 ∈ keysOf fs from List.mem_map.mpr ⟨p, hp, rfl⟩) hpk)
      obtain ⟨hndres, hres⟩ := hinv
      refine ⟨WFJ_obj.mpr ⟨hndres, WFL_iff.mpr (fun p hp => (hres p hp).1.1)⟩,
        ?_, ?_, ?_⟩
      · rw [noEmptyChildren_obj]
        exact noEmptyChildrenL_iff.mpr
          (fun p hp => ⟨(hres p hp).2.1, (hres p hp).2.2.1⟩)
      · rw [depthJ_obj, depthJ_obj]
        have := depthL_le_of_forall (fun p hp => (hres p hp).1.2)
        omega
      · intro hip
        rw [idFixedStrs_obj]
        exact idFixedStrsL_iff.mpr (fun p hp =>
          ⟨((hres p hp).2.2.2 hip).1, ((hres p hp).2.2.2 hip).2⟩)

/-- The identity pass of the rewriter is a no-op on any value already in
rewritten form (strings fixed, no empty children, well-formed). -/
theorem foldl_mapStep_id (rec : JVal → JVal) (cur : List (String × JVal))
    (hnd : (keysOf cur).Nodup)
    (hval : ∀ p ∈ cur, rec p.2 = p.2 ∧ p.2.isEmptyObj = false ∧
      mapUserString (fun x => x) p.1 = p.1) :
    ∀ ks : List String, ks.foldl (mapStep rec (fun x => x)) cur = cur := by
  intro ks
  induction ks with
  | nil => rfl
  | cons k ks ih =>
    rw [List.foldl_cons]
    have hstep : mapStep rec (fun x => x) cur k = cur := by
      unfold mapStep
      cases hget : jsGet k cur with
      | none => rfl
      | some v0 =>
        have hmem := jsGet_mem hget
        obtain ⟨hrecv, hne, hkfix⟩ := hval (k, v0) hmem
        show (if (rec v0).isEmptyObj = true then
            jsDelete k (if k = mapUserString (fun x => x) k then cur
              else jsDelete k cur)
          else jsAssign (mapUserString (fun x => x) k) (rec v0)
            (if k = mapUserString (fun x => x) k then cur
              else jsDelete k cur)) = cur
        rw [hkfix, hrecv, hne]
        rw [if_pos rfl, if_neg (by simp)]
        exact jsAssign_self hnd hmem
    rw [hstep, ih]

theorem mapAllUserKeysF_id_of_fixed :
    ∀ (n : Nat) (v : JVal), depthJ v < n → WFJ v = true →
      noEmptyChildren v = true → idFixedStrs v = true →
      mapAllUserKeysF (fun x => x) n v = v := by
  intro n
  induction n with
  | zero => intro v hd _ _ _; exact absurd hd (Nat.not_lt_zero _)
  | succ n ih =>
    intro v hd hwf hnem hfix
    match v with
    | .null => rfl
    | .bool b => rfl
    | .num m => rfl
    | .str s =>
      show JVal.str (mapUserString (fun x => x) s) = .str s
      have hs : mapUserString (fun x => x) s = s :=
        eq_of_beq (by simpa [idFixedStrs] using hfix)
      rw [hs]
    | .obj fs =>
      show JVal.obj ((keysOf fs).foldl
        (mapStep (fun w => mapAllUserKeysF (fun x => x) n w) (fun x => x)) fs) =
        .obj fs
      congr 1
      obtain ⟨hndk, hwfl⟩ := WFJ_obj.mp hwf
      rw [noEmptyChildren_obj] at hnem
      rw [idFixedStrs_obj] at hfix
      refine foldl_mapStep_id _ fs hndk ?_ (keysOf fs)
      intro p hp
      have h1 := WFL_iff.mp hwfl p hp
      have h2 := noEmptyChildrenL_iff.mp hnem p hp
      have h3 := idFixedStrsL_iff.mp hfix p hp
      refine ⟨ih p.2 ?_ h1 h2.2 h3.2, h2.1, h3.1⟩
      have := depthJ_mem_le hp
      rw [depthJ_obj] at hd
      omega

theorem lookupStr_mem {m : List (String × String)} {k v : String}
    (h : lookupStr m k = some v) : ∃ p ∈ m, p.2 = v := by
  unfold lookupStr at h
  match hf : m.find? (fun p => p.1 == k) with
  | none => rw [hf] at h; cases h
  | some p =>
    rw [hf] at h
    cases h
    exact ⟨p, List.mem_of_find?_eq_some hf, rfl⟩


/-! ### Claim C1 -/

/-- C1: for every JSON value passed through the reference rewriter
(`mapAllUserKeys`), no nested object in the returned value is empty: any
object that becomes empty after identifier-mapping pruning is deleted from
its parent rather than kept as `{}`, recursively.  (Quantified over any
mapping function, hence over any user map/ghost configuration.) -/
theorem C1_rewriter_prunes_empty_objects (f : String → String) (v : JVal)
    (hWF : WFJ v = true) :
    noEmptyChildren (mapAllUserKeys f v) = true :=
  (mapAllUserKeysF_good f (depthJ v + 1) v (by omega) hWF).2.1

theorem C1_rewriter_prunes_empty_objects_witness :
    WFJ (JVal.obj [("a", .obj [("b", .obj [])]), ("c", .str "github:7")]) = true ∧
    noEmptyChildren (mapAllUserKeys (fun k => k)
      (JVal.obj [("a", .obj [("b", .obj [])]), ("c", .str "github:7")])) = true :=
  ⟨by decide,
   C1_rewriter_prunes_empty_objects (fun k => k)
     (JVal.obj [("a", .obj [("b", .obj [])]), ("c", .str "github:7")]) (by decide)⟩

/-! ### Claim C2 -/

/-- C2: for every JSON value `v` and every identifier map `m` (a JS object
sending identifiers to identifier strings, as in the `users.json` input),
rewriting `v` with `m` and then rewriting the result with the identity
mapping yields the same value as rewriting once: the reference rewriter is
idempotent once identifiers are resolved to final form.  `mapUserKeyFn m`
is the canonical `mapUserKey` in explicit-map mode and `fun k => k` its
identity-mode value behaviour. -/
theorem C2_rewrite_idempotent (m : List (String × String)) (v : JVal)
    (hWF : WFJ v = true)
    (hm : ∀ p ∈ m, isUserKeyChars p.2.data = true) :
    mapAllUserKeys (fun k => k) (mapAllUserKeys (mapUserKeyFn m) v) =
      mapAllUserKeys (mapUserKeyFn m) v := by
  have hf : IdPres (mapUserKeyFn m) := by
    intro s hs
    unfold mapUserKeyFn
    cases hl : lookupStr m s with
    | none => decide
    | some w =>
      show isUserKeyChars (if w.isEmpty = true then "github:1" else w).data = true
      by_cases hw : w.isEmpty = true
      · rw [if_pos hw]
        decide
      · rw [if_neg hw]
        rcases lookupStr_mem hl with ⟨p, hpm, rfl⟩
        exact hm p hpm
  have hgood := mapAllUserKeysF_good (mapUserKeyFn m) (depthJ v + 1) v
    (by omega) hWF
  exact mapAllUserKeysF_id_of_fixed
    (depthJ (mapAllUserKeys (mapUserKeyFn m) v) + 1) _ (by omega)
    hgood.1 hgood.2.1 (hgood.2.2.2 hf)

theorem C2_rewrite_idempotent_witness :
    (WFJ (JVal.obj [("a", .str "github:5"),
        ("github:5", .obj [("x", .bool true)])]) = true ∧
      (∀ p ∈ [("github:5", "github:7")], isUserKeyChars p.2.data = true)) ∧
    mapAllUserKeys (fun k => k)
        (mapAllUserKeys (mapUserKeyFn [("github:5", "github:7")])
          (JVal.obj [("a", .str "github:5"),
            ("github:5", .obj [("x", .bool true)])])) =
      mapAllUserKeys (mapUserKeyFn [("github:5", "github:7")])
        (JVal.obj [("a", .str "github:5"),
          ("github:5", .obj [("x", .bool true)])]) :=
  ⟨⟨by decide, by decide⟩,
   C2_rewrite_idempotent [("github:5", "github:7")]
     (JVal.obj [("a", .str "github:5"), ("github:5", .obj [("x", .bool true)])])
     (by decide) (by decide)⟩


/-! ### Claim C3 -/

theorem uniqFirstAux_complete : ∀ (l seen : List String) (k : String), k ∈ l →
    k ∈ seen ∨ k ∈ uniqFirstAux seen l := by
  intro l
  induction l with
  | nil => intro seen k hk; cases hk
  | cons a l ih =>
    intro seen k hk
    unfold uniqFirstAux
    split
    · next hc =>
      rcases List.mem_cons.mp hk with rfl | hk2
      · refine Or.inl ?_
        rcases List.contains_iff_exists_mem_beq.mp hc with ⟨x, hx, he⟩
        exact (eq_of_beq he) ▸ hx
      · exact ih seen k hk2
    · rcases List.mem_cons.mp hk with rfl | hk2
      · exact Or.inr (by simp)
      · rcases ih (a :: seen) k hk2 with hin | hin
        · rcases List.mem_cons.mp hin with rfl | hin2
          · exact Or.inr (by simp)
          · exact Or.inl hin2
        · exact Or.inr (by simp [hin])

theorem uniqFirst_mem_iff {l : List String} {k : String} :
    k ∈ uniqFirst l ↔ k ∈ l := by
  constructor
  · exact uniqFirst_mem
  · intro hk
    rcases uniqFirstAux_complete l [] k hk with h | h
    · cases h
    · exact h

theorem collect_foldl_mem (repoStore : String → Option JVal) :
    ∀ (names : List String) (acc : List String) (k : String),
      k ∈ names.foldl (collectStep repoStore) acc ↔
        k ∈ acc ∨ ∃ n ∈ names, ∃ repo, repoStore n = some repo ∧
          (k ∈ mapValuesStr (jsGet "pullRequests" (objFields repo)) ∨
           k ∈ mapValuesStr (jsGet "oldPullRequests" (objFields repo))) := by
  intro names
  induction names with
  | nil => simp
  | cons nm names ih =>
    intro acc k
    rw [List.foldl_cons, ih]
    have hstep : k ∈ collectStep repoStore acc nm ↔
        k ∈ acc ∨ ∃ repo, repoStore nm = some repo ∧
          (k ∈ mapValuesStr (jsGet "pullRequests" (objFields repo)) ∨
           k ∈ mapValuesStr (jsGet "oldPullRequests" (objFields repo))) := by
      unfold collectStep
      cases hs : repoStore nm with
      | none => simp
      | some repo0 =>
        simp only [List.mem_append, Option.some.injEq]
        constructor
        · rintro ((h | h) | h)
          · exact Or.inl h
          · exact Or.inr ⟨repo0, rfl, Or.inl h⟩
          · exact Or.inr ⟨repo0, rfl, Or.inr h⟩
        · rintro (h | ⟨repo, heq, h2⟩)
          · exact Or.inl (Or.inl h)
          · cases heq
            rcases h2 with h2 | h2
            · exact Or.inl (Or.inr h2)
            · exact Or.inr h2
    rw [hstep]
    constructor
    · rintro ((h | ⟨repo, heq, h2⟩) | ⟨n, hn, repo, heq, h2⟩)
      · exact Or.inl h
      · exact Or.inr ⟨nm, by simp, repo, heq, h2⟩
      · exact Or.inr ⟨n, by simp [hn], repo, heq, h2⟩
    · rintro (h | ⟨n, hn, repo, heq, h2⟩)
      · exact Or.inl (Or.inl h)
      · rcases List.mem_cons.mp hn with rfl | hn2
        · exact Or.inl (Or.inr ⟨repo, heq, h2⟩)
        · exact Or.inr ⟨n, hn2, repo, heq, h2⟩

/-- C3: the reachable review-key set used by all later extraction phases is
exactly the deduplicated union of the values of every fetched repository's
`pullRequests` and `oldPullRequests` maps; in particular, for seed
`["acme/widgets"]` with `pullRequests {"1": "r1", "2": "r2"}` and
`oldPullRequests {"3": "r1"}`, the set is exactly `{r1, r2}` (as the
duplicate-free list `["r1", "r2"]`). -/
theorem C3_reachable_review_keys :
    (∀ (repoStore : String → Option JVal) (repoNames : List String),
      (reachableReviewKeys repoStore repoNames).Nodup ∧
      ∀ k, k ∈ reachableReviewKeys repoStore repoNames ↔
        ∃ n ∈ repoNames, ∃ repo, repoStore n = some repo ∧
          (k ∈ mapValuesStr (jsGet "pullRequests" (objFields repo)) ∨
           k ∈ mapValuesStr (jsGet "oldPullRequests" (objFields repo)))) ∧
    reachableReviewKeys
      (fun n => if n = "acme/widgets" then
        some (JVal.obj
          [("pullRequests", .obj [("1", .str "r1"), ("2", .str "r2")]),
           ("oldPullRequests", .obj [("3", .str "r1")])])
        else none)
      ["acme/widgets"] = ["r1", "r2"] := by
  constructor
  · intro repoStore repoNames
    refine ⟨uniqFirst_nodup _, fun k => ?_⟩
    unfold reachableReviewKeys collectReviewKeys
    rw [uniqFirst_mem_iff, collect_foldl_mem]
    simp
  · rfl


/-! ### Claim C4 -/

/-- C4 counterexample: the claim says the fatal mapping error names the
offending identifier *and its context path*.  The only variant that can
fail — the legacy `mapUserKey`, the one with a `--ghost` option — takes no
context argument at all, and its message for `github:99` is exactly the
string below, which names the identifier but contains no slash-delimited
context path (`'/'` does not occur in it). -/
theorem C4_counterexample :
    mapUserKeyV1 [] none "github:99" =
      .error "User not mapped and no ghost specified: github:99" ∧
    ("User not mapped and no ghost specified: github:99".data.contains '/')
      = false := by
  exact ⟨rfl, by decide⟩

/-- C4 (amended): a missing mapping never raises an error when a ghost
identifier is available — the canonical `mapUserKey` cannot fail at all
(the ghost sentinel `github:1` is returned and the occurrence logged with
its context) — and in the legacy variant, mapping an unmapped identifier
with ghosting disabled (no `--ghost`) is a fatal error that names the
offending identifier (but no context path, which that variant does not
track). -/
theorem C4_mapping_failure_behaviour :
    (∀ (userMap : List (String × String)) (userKey context : String),
      lookupTruthy userMap userKey = none →
        (mapUserKeyV2 false userMap userKey context).1 = "github:1" ∧
        (userKey ≠ "github:1" →
          (mapUserKeyV2 false userMap userKey context).2.2 =
            some (userKey, context))) ∧
    (∀ (userMap : List (String × String)) (userKey : String),
      lookupTruthy userMap userKey = none →
        mapUserKeyV1 userMap none userKey =
          .error ("User not mapped and no ghost specified: " ++ userKey)) := by
  constructor
  · intro userMap userKey context hmiss
    refine ⟨?_, fun hne => ?_⟩
    · show (match lookupTruthy userMap userKey with
        | some v => v
        | none => "github:1") = "github:1"
      rw [hmiss]
    · show (if (lookupTruthy userMap userKey).isNone && (userKey != "github:1")
          then some (userKey, context) else none) = some (userKey, context)
      rw [hmiss]
      rw [if_pos (by simp [hne])]
  · intro userMap userKey hmiss
    unfold mapUserKeyV1
    rw [hmiss]
    rfl

theorem C4_mapping_failure_behaviour_witness :
    ((mapUserKeyV2 false [] "github:42" "reviews/r1/core/author").1 =
        "github:1" ∧
      ("github:42" ≠ "github:1" →
        (mapUserKeyV2 false [] "github:42" "reviews/r1/core/author").2.2 =
          some ("github:42", "reviews/r1/core/author"))) ∧
    mapUserKeyV1 [] none "github:77" =
      .error ("User not mapped and no ghost specified: " ++ "github:77") :=
  ⟨C4_mapping_failure_behaviour.1 [] "github:42" "reviews/r1/core/author" rfl,
   C4_mapping_failure_behaviour.2 [] "github:77" rfl⟩

/-! ### Claim C6 -/

/-- C6 counterexample: with a store holding no Rule entity for the only
seed repository, `extractRules` writes nothing at all — no record, hence
no deletion marker — contradicting the claim that a Rule record is always
emitted even when the entity is absent. -/
theorem C6_counterexample :
    extractRules (fun k => k) (fun s => s) none (fun _ _ => none)
      ["acme/widgets"] = [] := rfl

/-- C6 (amended): extraction invokes `writeItem` for the Rule entity of
every seed repository, but `writeItem` suppresses absent/null values: no
record (and no deletion marker) is emitted when the Rule entity is absent,
and exactly one rules line is emitted for each repository whose Rule
exists. -/
theorem C6_rules_only_when_present :
    (∀ (f : String → String) (escape : String → String)
        (orgMap : Option (List (String × String)))
        (ruleStore : String → String → Option JVal) (repoNames : List String),
      (∀ o r, ruleStore o r = none ∨ ruleStore o r = some .null) →
      extractRules f escape orgMap ruleStore repoNames = []) ∧
    (∀ (f : String → String) (escape : String → String)
        (orgMap : Option (List (String × String)))
        (ruleStore : String → String → Option JVal)
        (repoNames : List String) (repoName : String) (rule : JVal),
      repoName ∈ repoNames →
      ruleStore ((repoName.splitOn "/").getD 0 "")
        ((repoName.splitOn "/").getD 1 "") = some rule →
      rule ≠ .null →
      ∃ line ∈ extractRules f escape orgMap ruleStore repoNames,
        line.key = "rules/" ++
          escape (mapOrg orgMap ((repoName.splitOn "/").getD 0 "")) ++ "/" ++
          escape ((repoName.splitOn "/").getD 1 "") ∧
        line.value = mapAllUserKeys f rule) := by
  constructor
  · intro f escape orgMap ruleStore repoNames habsent
    unfold extractRules
    rw [List.filterMap_eq_nil]
    intro repoName _
    show writeItem f ("rules/" ++
        escape (mapOrg orgMap ((repoName.splitOn "/").getD 0 "")) ++ "/" ++
        escape ((repoName.splitOn "/").getD 1 ""))
        (ruleStore ((repoName.splitOn "/").getD 0 "")
          ((repoName.splitOn "/").getD 1 "")) none = none
    rcases habsent ((repoName.splitOn "/").getD 0 "")
      ((repoName.splitOn "/").getD 1 "") with h | h
    · rw [h]
      rfl
    · rw [h]
      rfl
  · intro f escape orgMap ruleStore repoNames repoName rule hmem hstore hnn
    have hwrite : writeItem f ("rules/" ++
        escape (mapOrg orgMap ((repoName.splitOn "/").getD 0 "")) ++ "/" ++
        escape ((repoName.splitOn "/").getD 1 ""))
        (ruleStore ((repoName.splitOn "/").getD 0 "")
          ((repoName.splitOn "/").getD 1 "")) none =
        some (Line.mk ("rules/" ++
            escape (mapOrg orgMap ((repoName.splitOn "/").getD 0 "")) ++ "/" ++
            escape ((repoName.splitOn "/").getD 1 ""))
          (mapAllUserKeys f rule) none) := by
      rw [hstore]
      cases rule with
      | null => exact absurd rfl hnn
      | bool b => rfl
      | num n => rfl
      | str s => rfl
      | obj fs => rfl
    refine ⟨_, List.mem_filterMap.mpr ⟨repoName, hmem, hwrite⟩, rfl, rfl⟩

theorem C6_rules_only_when_present_witness :
    extractRules (fun k => k) (fun s => s) none (fun _ _ => none) ["a/b"] = [] ∧
    ∃ line ∈ extractRules (fun k => k) (fun s => s) none
        (fun _ _ => some (JVal.bool true)) ["a/b"],
      line.key = "rules/" ++
        (fun s => s) (mapOrg none (("a/b".splitOn "/").getD 0 "")) ++ "/" ++
        (fun s => s) (("a/b".splitOn "/").getD 1 "") ∧
      line.value = mapAllUserKeys (fun k => k) (JVal.bool true) :=
  ⟨C6_rules_only_when_present.1 (fun k => k) (fun s => s) none (fun _ _ => none)
      ["a/b"] (fun _ _ => Or.inl rfl),
   C6_rules_only_when_present.2 (fun k => k) (fun s => s) none
      (fun _ _ => some (JVal.bool true)) ["a/b"] "a/b" (JVal.bool true)
      (by simp) rfl (by simp)⟩

/-! ### Claim C7 -/

/-- C7 counterexample: a structured value that is empty after rewriting
(here `{a: {}}`, which the rewriter prunes to `{}`) is *not* skipped:
`writeItem` still writes the line `["k", {}]` for it, contradicting the
claim that such records are skipped entirely. -/
theorem C7_counterexample :
    writeItem (fun k => k) "k" (some (JVal.obj [("a", JVal.obj [])])) none =
      some { key := "k", value := JVal.obj [], flags := none } := rfl

/-- C7 (amended): `writeItem(key, value, flags)` skips exactly
null/absent values; for any other value exactly one line is appended,
carrying the rewritten value — even when that rewritten value is an empty
structured value (such skipping is done by callers, not by `writeItem`) —
of the form `[key, value]`, or `[key, value, flags]` when a truthy flags
argument is given. -/
theorem C7_writeItem_behaviour (f : String → String) (key : String)
    (value : Option JVal) (flags : Option JVal) :
    ((value = none ∨ value = some .null) → writeItem f key value flags = none) ∧
    (∀ v, value = some v → v ≠ .null →
      writeItem f key value flags =
        some { key := key, value := mapAllUserKeys f v,
               flags := match flags with
                        | some fl => if fl.jsTruthy then some fl else none
                        | none => none }) := by
  constructor
  · rintro (rfl | rfl)
    · rfl
    · rfl
  · rintro v rfl hnn
    cases v with
    | null => exact absurd rfl hnn
    | bool b => rfl
    | num n => rfl
    | str s => rfl
    | obj fs => rfl

theorem C7_writeItem_behaviour_witness :
    writeItem (fun k => k) "k1" (some JVal.null) none = none ∧
    writeItem (fun k => k) "k2" (some (JVal.num 3))
        (some (JVal.obj [("placeholdersPresent", JVal.bool false)])) =
      some { key := "k2", value := mapAllUserKeys (fun k => k) (JVal.num 3),
             flags := some (JVal.obj [("placeholdersPresent", JVal.bool false)]) } :=
  ⟨(C7_writeItem_behaviour (fun k => k) "k1" (some JVal.null) none).1
      (Or.inr rfl),
   (C7_writeItem_behaviour (fun k => k) "k2" (some (JVal.num 3))
      (some (JVal.obj [("placeholdersPresent", JVal.bool false)]))).2
      (JVal.num 3) rfl (by simp)⟩


/-! ### Claim C5 -/

theorem jsGet_jsDelete_self {k : String} {fs : List (String × JVal)} :
    jsGet k (jsDelete k fs) = none := by
  unfold jsGet jsDelete
  rw [Option.map_eq_none', List.find?_eq_none]
  intro p hp
  simpa using List.of_mem_filter hp

theorem jsGet_jsDelete_ne {k k2 : String} {fs : List (String × JVal)}
    (h : k2 ≠ k) : jsGet k2 (jsDelete k fs) = jsGet k2 fs := by
  unfold jsGet jsDelete
  congr 1
  induction fs with
  | nil => rfl
  | cons p ps ih =>
    rw [List.filter_cons]
    by_cases hp : (p.1 != k) = true
    · rw [if_pos hp]
      by_cases hp2 : (p.1 == k2) = true
      · rw [List.find?_cons_of_pos (p := fun q : String × JVal => q.1 == k2) _ hp2,
          List.find?_cons_of_pos (p := fun q : String × JVal => q.1 == k2) _ hp2]
      · rw [List.find?_cons_of_neg (p := fun q : String × JVal => q.1 == k2) _ hp2,
          List.find?_cons_of_neg (p := fun q : String × JVal => q.1 == k2) _ hp2, ih]
    · rw [if_neg hp]
      have hpk : p.1 = k := by simpa using hp
      have hp2 : ¬((p.1 == k2) = true) := by
        rw [hpk]
        simp
        exact fun he => h he.symm
      rw [List.find?_cons_of_neg (p := fun q : String × JVal => q.1 == k2) _ hp2, ih]

theorem assign_find_some {k : String} {v : JVal} :
    ∀ (fs : List (String × JVal)), fs.any (fun p => p.1 == k) = true →
    ((fs.map (fun p => if p.1 == k then (k, v) else p)).find?
      (fun p => p.1 == k)) = some (k, v) := by
  intro fs
  induction fs with
  | nil => intro h; simp at h
  | cons p ps ih =>
    intro hex
    rw [List.map_cons]
    by_cases hp : (p.1 == k) = true
    · rw [if_pos hp]
      rw [List.find?_cons_of_pos (p := fun q : String × JVal => q.1 == k) _ (by simp)]
    · rw [if_neg hp, List.find?_cons_of_neg (p := fun q : String × JVal => q.1 == k) _ hp]
      apply ih
      rcases List.any_eq_true.mp hex with ⟨q, hq, hq2⟩
      rcases List.mem_cons.mp hq with rfl | hq3
      · exact absurd hq2 hp
      · exact List.any_eq_true.mpr ⟨q, hq3, hq2⟩

theorem jsGet_jsAssign_self {k : String} {v : JVal} {fs : List (String × JVal)} :
    jsGet k (jsAssign k v fs) = some v := by
  unfold jsGet jsAssign
  split
  · next hex =>
    rw [assign_find_some fs hex]
    rfl
  · next hex =>
    rw [List.find?_append]
    have hfs : fs.find? (fun p => p.1 == k) = none := by
      rw [List.find?_eq_none]
      intro p hp hpk
      exact hex (List.any_eq_true.mpr ⟨p, hp, hpk⟩)
    rw [hfs]
    rw [List.find?_cons_of_pos (p := fun q : String × JVal => q.1 == k) _ (by simp)]
    rfl

theorem jsGet_jsAssign_ne {k k2 : String} {v : JVal} {fs : List (String × JVal)}
    (h : k2 ≠ k) : jsGet k2 (jsAssign k v fs) = jsGet k2 fs := by
  unfold jsGet jsAssign
  split
  · next hex =>
    clear hex
    congr 1
    induction fs with
    | nil => rfl
    | cons p ps ih =>
      rw [List.map_cons]
      by_cases hp : (p.1 == k) = true
      · rw [if_pos hp]
        have hpk : p.1 = k := by simpa using hp
        have hf1 : ¬((((k, v) : String × JVal).1 == k2) = true) := by
          simp
          exact fun he => h he.symm
        have hf2 : ¬((p.1 == k2) = true) := by
          rw [hpk]
          simp
          exact fun he => h he.symm
        rw [List.find?_cons_of_neg (p := fun q : String × JVal => q.1 == k2) _ hf1,
          List.find?_cons_of_neg (p := fun q : String × JVal => q.1 == k2) _ hf2, ih]
      · rw [if_neg hp]
        by_cases hp2 : (p.1 == k2) = true
        · rw [List.find?_cons_of_pos (p := fun q : String × JVal => q.1 == k2) _ hp2,
            List.find?_cons_of_pos (p := fun q : String × JVal => q.1 == k2) _ hp2]
        · rw [List.find?_cons_of_neg (p := fun q : String × JVal => q.1 == k2) _ hp2,
            List.find?_cons_of_neg (p := fun q : String × JVal => q.1 == k2) _ hp2, ih]
  · congr 1
    rw [List.find?_append]
    have h1 : ([(k, v)] : List (String × JVal)).find? (fun p => p.1 == k2) = none := by
      rw [List.find?_cons_of_neg (p := fun q : String × JVal => q.1 == k2) _
        (by simp; exact fun he => h he.symm)]
      rfl
    rw [h1]
    cases fs.find? (fun p => p.1 == k2) <;> rfl

theorem jsGet_stripCommentMap_ne {k field : String} {fs : List (String × JVal)}
    (h : k ≠ field) : jsGet k (stripCommentMap fs field) = jsGet k fs := by
  unfold stripCommentMap
  split
  · rw [jsGet_jsDelete_ne h, jsGet_jsAssign_ne h]
  · rw [jsGet_jsAssign_ne h]

theorem jsGet_stripCommentMap_self {field : String} {fs : List (String × JVal)} :
    jsGet field (stripCommentMap fs field) =
      if (keptEntries fs field).isEmpty then none
      else some (JVal.obj (keptEntries fs field)) := by
  unfold stripCommentMap
  split
  · exact jsGet_jsDelete_self
  · exact jsGet_jsAssign_self

theorem jsGet_stripTracker_ne {k : String} {i : Bool} {u : String → Bool}
    {fs : List (String × JVal)} (h : k ≠ "tracker") :
    jsGet k (stripTracker i u fs) = jsGet k fs := by
  unfold stripTracker
  split
  · rw [jsGet_jsAssign_ne h]
  · rfl

theorem jsGet_stripSecurity_ne {k : String}
    {o : Option (List (String × String))} {fs : List (String × JVal)}
    (h : k ≠ "security") : jsGet k (stripSecurity o fs) = jsGet k fs := by
  unfold stripSecurity
  split
  · split
    · rw [jsGet_jsAssign_ne h]
    · rfl
  · rfl

theorem jsGet_stripCore_ne {k : String}
    {o : Option (List (String × String))} {fs : List (String × JVal)}
    (h : k ≠ "core") : jsGet k (stripCore o fs) = jsGet k fs := by
  unfold stripCore
  rw [jsGet_jsAssign_ne h]

theorem jsGet_stripDeletes {k : String} {fs : List (String × JVal)}
    (h1 : k ≠ "lastWebhook") (h2 : k ≠ "requestedTeams")
    (h3 : k ≠ "gitHubComments") :
    jsGet k (stripDeletes fs) = jsGet k fs := by
  unfold stripDeletes
  rw [jsGet_jsDelete_ne h3, jsGet_jsDelete_ne h2, jsGet_jsDelete_ne h1]

theorem keptEntries_eq_of_jsGet {fs fs2 : List (String × JVal)} {field : String}
    (h : jsGet field fs = jsGet field fs2) :
    keptEntries fs field = keptEntries fs2 field := by
  unfold keptEntries getF
  rw [show objFields (JVal.obj fs) = fs from rfl,
    show objFields (JVal.obj fs2) = fs2 from rfl, h]

theorem keptEntries_mem {fs : List (String × JVal)} {field : String}
    {p : String × JVal} (hp : p ∈ keptEntries fs field) :
    objFields (getF p.2 "comments") ≠ [] ∧
    ∀ c ∈ objFields (getF p.2 "comments"), List.isPrefixOf "gh-".data c.1.data = false := by
  unfold keptEntries at hp
  have hkeep := List.of_mem_filter hp
  have hmem := List.mem_of_mem_filter hp
  rcases List.mem_map.mp hmem with ⟨q, hq, hq2⟩
  have hp2 : p.2 = filterDiscussion q.2 := by rw [← hq2]
  constructor
  · intro he
    rw [he] at hkeep
    simp at hkeep
  · intro c hc
    rw [hp2] at hc
    have hg : getF (filterDiscussion q.2) "comments" =
        JVal.obj (filterComments (getF q.2 "comments")) := by
      show (jsGet "comments" (jsAssign "comments"
        (JVal.obj (filterComments (getF q.2 "comments")))
        (objFields q.2))).getD JVal.null =
        JVal.obj (filterComments (getF q.2 "comments"))
      rw [jsGet_jsAssign_self]
      rfl
    rw [hg] at hc
    have hc2 : c ∈ (objFields (getF q.2 "comments")).filter
        (fun c => !List.isPrefixOf "gh-".data c.1.data) := hc
    have := List.of_mem_filter hc2
    simpa using this

/-- C5: sanitisation removes every `gh-`-prefixed comment from
`discussions` and `sentiments`, drops any discussion (or sentiment) left
with no comments, and when nothing survives the field is absent from the
sanitised review rather than present as an empty object.  The surviving
entries are exactly `keptEntries` of the input review. -/
theorem C5_comment_sanitisation (orgMap : Option (List (String × String)))
    (identityUserMap : Bool) (userMapMem : String → Bool) (review : JVal) :
    (jsGet "discussions"
        (objFields (stripReview orgMap identityUserMap userMapMem review).1) =
      if (keptEntries (objFields review) "discussions").isEmpty then none
      else some (JVal.obj (keptEntries (objFields review) "discussions"))) ∧
    (jsGet "sentiments"
        (objFields (stripReview orgMap identityUserMap userMapMem review).1) =
      if (keptEntries (objFields review) "sentiments").isEmpty then none
      else some (JVal.obj (keptEntries (objFields review) "sentiments"))) ∧
    (∀ p ∈ keptEntries (objFields review) "discussions",
      objFields (getF p.2 "comments") ≠ [] ∧
      ∀ c ∈ objFields (getF p.2 "comments"), List.isPrefixOf "gh-".data c.1.data = false) ∧
    (∀ p ∈ keptEntries (objFields review) "sentiments",
      objFields (getF p.2 "comments") ≠ [] ∧
      ∀ c ∈ objFields (getF p.2 "comments"), List.isPrefixOf "gh-".data c.1.data = false) := by
  have hout : objFields (stripReview orgMap identityUserMap userMapMem review).1 =
      stripCommentMap
        (stripTracker identityUserMap userMapMem
          (stripCommentMap
            (stripSecurity orgMap
              (stripCore orgMap (stripDeletes (objFields review))))
            "discussions"))
        "sentiments" := rfl
  have hmidD : jsGet "discussions"
      (stripSecurity orgMap (stripCore orgMap (stripDeletes (objFields review)))) =
      jsGet "discussions" (objFields review) := by
    rw [jsGet_stripSecurity_ne (by decide), jsGet_stripCore_ne (by decide),
      jsGet_stripDeletes (by decide) (by decide) (by decide)]
  have hmidS : jsGet "sentiments"
      (stripSecurity orgMap (stripCore orgMap (stripDeletes (objFields review)))) =
      jsGet "sentiments" (objFields review) := by
    rw [jsGet_stripSecurity_ne (by decide), jsGet_stripCore_ne (by decide),
      jsGet_stripDeletes (by decide) (by decide) (by decide)]
  refine ⟨?_, ?_, fun p hp => keptEntries_mem hp, fun p hp => keptEntries_mem hp⟩
  · rw [hout, jsGet_stripCommentMap_ne (by decide),
      jsGet_stripTracker_ne (by decide), jsGet_stripCommentMap_self,
      keptEntries_eq_of_jsGet hmidD]
  · have hS : jsGet "sentiments"
        (stripTracker identityUserMap userMapMem
          (stripCommentMap
            (stripSecurity orgMap
              (stripCore orgMap (stripDeletes (objFields review))))
            "discussions")) =
        jsGet "sentiments" (objFields review) := by
      rw [jsGet_stripTracker_ne (by decide),
        jsGet_stripCommentMap_ne (by decide), hmidS]
    rw [hout, jsGet_stripCommentMap_self, keptEntries_eq_of_jsGet hS]

theorem C5_comment_sanitisation_witness :
    (jsGet "discussions" (objFields (stripReview none true (fun _ => true)
        (JVal.obj [("discussions", JVal.obj [("d1", JVal.obj [("comments",
          JVal.obj [("gh-1", JVal.str "a"), ("c1", JVal.str "b")])])])])).1) =
      some (JVal.obj [("d1", JVal.obj [("comments",
        JVal.obj [("c1", JVal.str "b")])])])) ∧
    (jsGet "discussions" (objFields (stripReview none true (fun _ => true)
        (JVal.obj [("discussions", JVal.obj [("d1", JVal.obj [("comments",
          JVal.obj [("gh-1", JVal.str "a"), ("gh-2", JVal.str "b")])])])])).1) =
      none) := by
  constructor
  · rw [(C5_comment_sanitisation none true (fun _ => true)
      (JVal.obj [("discussions", JVal.obj [("d1", JVal.obj [("comments",
        JVal.obj [("gh-1", JVal.str "a"), ("c1", JVal.str "b")])])])])).1]
    rfl
  · rw [(C5_comment_sanitisation none true (fun _ => true)
      (JVal.obj [("discussions", JVal.obj [("d1", JVal.obj [("comments",
        JVal.obj [("gh-1", JVal.str "a"), ("gh-2", JVal.str "b")])])])])).1]
    rfl

/-! ### Claim C8 -/

theorem extractReviewStep_snd (f : String → String)
    (orgMap : Option (List (String × String))) (identityUserMap : Bool)
    (userMapMem : String → Bool) (liveStore archiveStore : String → Option JVal)
    (decode : String → JVal) (encode : JVal → String) (k : String) :
    (extractReviewStep f orgMap identityUserMap userMapMem liveStore
        archiveStore decode encode k).2 =
      if (liveStore k).isNone && (archiveStore k).isNone then [k] else [] := by
  unfold extractReviewStep
  cases hl : liveStore k with
  | some review => rfl
  | none =>
    cases ha : archiveStore k with
    | some archive => rfl
    | none => rfl

theorem extractReviews_foldl_acc (S : String → List Line × List String) :
    ∀ (keys : List String) (acc : List Line × List String),
      keys.foldl (fun acc k => (acc.1 ++ (S k).1, acc.2 ++ (S k).2)) acc =
        (acc.1 ++ keys.flatMap (fun k => (S k).1),
         acc.2 ++ keys.flatMap (fun k => (S k).2)) := by
  intro keys
  induction keys with
  | nil => intro acc; simp
  | cons k ks ih =>
    intro acc
    rw [List.foldl_cons, ih]
    simp

theorem flatMap_singleton_if_eq_filter (c : String → Bool) :
    ∀ (keys : List String),
      keys.flatMap (fun k => if c k then [k] else []) = keys.filter c := by
  intro keys
  induction keys with
  | nil => rfl
  | cons k ks ih =>
    rw [List.flatMap_cons, List.filter_cons, ih]
    by_cases h : c k = true
    · rw [if_pos h, if_pos h]
      rfl
    · rw [if_neg h, if_neg h]
      rfl

/-- C8: for every reachable review key, the live entity is attempted
first; when it is absent the archived entity is fetched, its payload
decoded, sanitised, user-key-rewritten and re-encoded in its place; when
neither entity exists the key only lands in the missing-reviews list —
extraction of the remaining keys proceeds and no error is possible: the
output lines are the concatenation of the per-key lines and the missing
list is exactly the keys absent from both stores, in input order. -/
theorem C8_review_fallback (f : String → String)
    (orgMap : Option (List (String × String))) (identityUserMap : Bool)
    (userMapMem : String → Bool) (liveStore archiveStore : String → Option JVal)
    (decode : String → JVal) (encode : JVal → String) (keys : List String) :
    (extractReviews f orgMap identityUserMap userMapMem liveStore archiveStore
        decode encode keys =
      (keys.flatMap (fun k => (extractReviewStep f orgMap identityUserMap
          userMapMem liveStore archiveStore decode encode k).1),
       keys.filter (fun k => (liveStore k).isNone && (archiveStore k).isNone))) ∧
    (∀ k review, liveStore k = some review →
      extractReviewStep f orgMap identityUserMap userMapMem liveStore
          archiveStore decode encode k =
        ((writeItem f ("reviews/" ++ k)
          (some (stripReview orgMap identityUserMap userMapMem review).1)
          none).toList, [])) ∧
    (∀ k archive payload, liveStore k = none → archiveStore k = some archive →
      jsGet "payload" (objFields archive) = some (JVal.str payload) →
      extractReviewStep f orgMap identityUserMap userMapMem liveStore
          archiveStore decode encode k =
        ((writeItem f ("archivedReviews/" ++ k)
          (some (JVal.obj (jsAssign "payload"
            (JVal.str (encode (mapAllUserKeys f
              (stripReview orgMap identityUserMap userMapMem
                (decode payload)).1)))
            (objFields archive))))
          (some (JVal.obj [("placeholdersPresent", JVal.bool
            (stripReview orgMap identityUserMap userMapMem
              (decode payload)).2)]))).toList, [])) ∧
    (∀ k, liveStore k = none → archiveStore k = none →
      extractReviewStep f orgMap identityUserMap userMapMem liveStore
          archiveStore decode encode k = ([], [k])) := by
  refine ⟨?_, ?_, ?_, ?_⟩
  · unfold extractReviews
    rw [extractReviews_foldl_acc]
    rw [show (keys.flatMap (fun k => (extractReviewStep f orgMap identityUserMap
        userMapMem liveStore archiveStore decode encode k).2)) =
      keys.flatMap (fun k => if (liveStore k).isNone && (archiveStore k).isNone
        then [k] else []) from by
      apply List.flatMap_congr
      intro k hk
      rw [extractReviewStep_snd]]
    rw [flatMap_singleton_if_eq_filter]
    simp
  · intro k review hl
    unfold extractReviewStep
    rw [hl]
  · intro k archive payload hl ha hp
    unfold extractReviewStep
    rw [hl, ha]
    simp only [hp]
  · intro k hl ha
    unfold extractReviewStep
    rw [hl, ha]

theorem C8_review_fallback_witness :
    extractReviews (fun k => k) none true (fun _ => true)
      (fun k => if k = "r1" then
        some (JVal.obj [("core", JVal.obj [("pullRequestId", JVal.num 7)])])
        else none)
      (fun k => if k = "r2" then
        some (JVal.obj [("payload", JVal.str "zip")]) else none)
      (fun _ => JVal.obj [("deleted", JVal.bool true)]) (fun _ => "rezip")
      ["r1", "r2", "r3"] =
    ([Line.mk "reviews/r1"
        (JVal.obj [("core", JVal.obj [("pullRequestId", JVal.num 7)])]) none,
      Line.mk "archivedReviews/r2"
        (JVal.obj [("payload", JVal.str "rezip")])
        (some (JVal.obj [("placeholdersPresent", JVal.bool false)]))],
     ["r3"]) := by
  rw [(C8_review_fallback (fun k => k) none true (fun _ => true)
    (fun k => if k = "r1" then
      some (JVal.obj [("core", JVal.obj [("pullRequestId", JVal.num 7)])])
      else none)
    (fun k => if k = "r2" then
      some (JVal.obj [("payload", JVal.str "zip")]) else none)
    (fun _ => JVal.obj [("deleted", JVal.bool true)]) (fun _ => "rezip")
    ["r1", "r2", "r3"]).1]
  rfl

/-! ### Claim C9 -/

theorem isPrefixOf_reviews_u {cs : List Char} :
    List.isPrefixOf "reviews/".data ('u' :: cs) = false := rfl

theorem isPrefixOf_system_u {cs : List Char} :
    List.isPrefixOf "system/oldestUsed".data ('u' :: cs) = false := rfl

theorem isPrefixOf_system_r {cs : List Char} :
    List.isPrefixOf "system/oldestUsed".data ('r' :: cs) = false := rfl

theorem users_head {l : List Char}
    (h : List.isPrefixOf "users/".data l = true) : ∃ cs, l = 'u' :: cs := by
  cases l with
  | nil => exact absurd h (by decide)
  | cons c cs =>
    have h2 : ('u' == c && List.isPrefixOf "sers/".data cs) = true := h
    have h3 : 'u' = c := by
      have h4 := (Bool.and_eq_true _ _).mp h2
      simpa using h4.1
    exact ⟨cs, by rw [← h3]⟩

theorem reviews_head {l : List Char}
    (h : List.isPrefixOf "reviews/".data l = true) : ∃ cs, l = 'r' :: cs := by
  cases l with
  | nil => exact absurd h (by decide)
  | cons c cs =>
    have h2 : ('r' == c && List.isPrefixOf "eviews/".data cs) = true := h
    have h3 : 'r' = c := by
      have h4 := (Bool.and_eq_true _ _).mp h2
      simpa using h4.1
    exact ⟨cs, by rw [← h3]⟩

/-- C9 counterexample: a streamed `reviews/` record whose value is empty
does *not* enqueue a synchronization job — `value.core.pullRequestId`
dereferences `undefined` and the Loader dies with a `TypeError` — whereas
a `users/github:N` record with an equally empty value does enqueue its
`fillUserProfile` job.  The claim's "regardless of whether the record's
value was empty" is therefore wrong for `reviews/` keys. -/
theorem C9_counterexample :
    processLine "github:2" "reviews/r1" (JVal.obj []) none =
      .error "TypeError: Cannot read properties of undefined (reading pullRequestId)" ∧
    processLine "github:2" "users/github:5" (JVal.obj []) none =
      .ok [.fillUserProfile "5" "github:2"] :=
  ⟨rfl, rfl⟩

/-- C9 (amended): a `users/` record whose key contains a
`users/github:<digits>` segment enqueues a `fillUserProfile` job no matter
what the value is (in particular when the value was empty and no merge
happened); a `reviews/` record enqueues the synchronization job keyed by
owner, repo, pull-request id and admin user only when its value has a
non-null `core` — with an empty (or otherwise `core`-less) value the
Loader instead throws a `TypeError`, so the side effect is not
unconditional for `reviews/` keys. -/
theorem C9_side_effect_behaviour (adminUserKey key : String) (value : JVal)
    (flags : Option JVal) :
    (∀ ds, List.isPrefixOf "users/".data key.data = true →
      userIdCapture key.data = some ds →
      processLine adminUserKey key value flags =
        .ok ((if value.jsIsEmpty then [] else [.update key value]) ++
          [.fillUserProfile ds adminUserKey])) ∧
    (List.isPrefixOf "reviews/".data key.data = true →
      jsGet "core" (objFields value) = none →
      processLine adminUserKey key value flags =
        .error "TypeError: Cannot read properties of undefined (reading pullRequestId)") ∧
    (∀ core, List.isPrefixOf "reviews/".data key.data = true →
      jsGet "core" (objFields value) = some core → core ≠ JVal.null →
      processLine adminUserKey key value flags =
        .ok ((if value.jsIsEmpty then [] else [.update key value]) ++
          [.pullRequestSync (jsToLowerF (jsGet "ownerName" (objFields core)))
            (jsToLowerF (jsGet "repoName" (objFields core)))
            ((jsGet "pullRequestId" (objFields core)).getD JVal.null)
            adminUserKey])) := by
  refine ⟨?_, ?_, ?_⟩
  · intro ds hu hcap
    obtain ⟨cs, hk⟩ := users_head hu
    unfold processLine
    rw [hk] at hu hcap ⊢
    rw [isPrefixOf_reviews_u, isPrefixOf_system_u, hcap]
    simp [hu]
  · intro hr hcore
    obtain ⟨cs, hk⟩ := reviews_head hr
    rw [hk] at hr
    unfold processLine
    rw [hk, hr, hcore]
    simp
  · intro core hr hcore hnn
    obtain ⟨cs, hk⟩ := reviews_head hr
    rw [hk] at hr
    unfold processLine
    rw [hk, hr, isPrefixOf_system_r, hcore]
    cases core with
    | null => exact absurd rfl hnn
    | bool b => simp
    | num n => simp
    | str s => simp
    | obj fs => simp

theorem C9_side_effect_behaviour_witness :
    processLine "github:2" "users/github:5" (JVal.obj []) none =
      .ok [.fillUserProfile "5" "github:2"] ∧
    processLine "github:2" "reviews/r1" (JVal.obj []) none =
      .error "TypeError: Cannot read properties of undefined (reading pullRequestId)" ∧
    processLine "github:2" "reviews/r1"
      (JVal.obj [("core", JVal.obj [("pullRequestId", JVal.num 7),
        ("ownerName", JVal.str "Acme"), ("repoName", JVal.str "Widgets")])]) none =
      .ok [.update "reviews/r1"
          (JVal.obj [("core", JVal.obj [("pullRequestId", JVal.num 7),
            ("ownerName", JVal.str "Acme"), ("repoName", JVal.str "Widgets")])]),
        .pullRequestSync "acme" "widgets" (JVal.num 7) "github:2"] := by
  refine ⟨?_, ?_, ?_⟩
  · have h := ((C9_side_effect_behaviour "github:2" "users/github:5"
      (JVal.obj []) none).1) "5" (by decide) (by decide)
    rw [h]
    rfl
  · have h := ((C9_side_effect_behaviour "github:2" "reviews/r1"
      (JVal.obj []) none).2.1) (by decide) rfl
    rw [h]
  · have h := ((C9_side_effect_behaviour "github:2" "reviews/r1"
      (JVal.obj [("core", JVal.obj [("pullRequestId", JVal.num 7),
        ("ownerName", JVal.str "Acme"), ("repoName", JVal.str "Widgets")])])
      none).2.2) (JVal.obj [("pullRequestId", JVal.num 7),
        ("ownerName", JVal.str "Acme"), ("repoName", JVal.str "Widgets")])
      (by decide) rfl (by intro h; cases h)
    rw [h]
    rfl

/-! ### Claim C10 -/

theorem extractUserEntry_ghost (merge : Bool) (f : String → String)
    (orgMap : Option (List (String × String))) (repoNames : List String)
    (reviewKeys : List String) (userStore : String → Option JVal)
    (oldUserKey : String) :
    extractUserEntry merge f orgMap repoNames reviewKeys userStore
      oldUserKey "github:1" = ([], []) := by
  unfold extractUserEntry
  rw [if_pos (by decide)]

theorem extractUserEntry_miss (merge : Bool) (f : String → String)
    (orgMap : Option (List (String × String))) (repoNames : List String)
    (reviewKeys : List String) (userStore : String → Option JVal)
    (oldUserKey newUserKey : String) (hg : newUserKey ≠ "github:1")
    (hs : userStore oldUserKey = none) :
    extractUserEntry merge f orgMap repoNames reviewKeys userStore
      oldUserKey newUserKey = ([], [oldUserKey]) := by
  unfold extractUserEntry
  rw [if_neg (by simp [hg]), hs]

theorem foldl_accumulate {α : Type} (S : α → List Line × List String) :
    ∀ (xs : List α) (acc : List Line × List String),
      xs.foldl (fun acc k => (acc.1 ++ (S k).1, acc.2 ++ (S k).2)) acc =
        (acc.1 ++ xs.flatMap (fun k => (S k).1),
         acc.2 ++ xs.flatMap (fun k => (S k).2)) := by
  intro xs
  induction xs with
  | nil => intro acc; simp
  | cons k ks ih =>
    intro acc
    rw [List.foldl_cons, ih]
    simp

theorem extractUsers_skip_aux (merge : Bool) (f : String → String)
    (orgMap : Option (List (String × String))) (repoNames : List String)
    (reviewKeys : List String) (userStore : String → Option JVal) :
    ∀ (um : List (String × String)),
      (∀ p ∈ um, p.2 = "github:1" ∨ userStore p.1 = none) →
      um.flatMap (fun p => (extractUserEntry merge f orgMap repoNames
          reviewKeys userStore p.1 p.2).1) = [] ∧
      um.flatMap (fun p => (extractUserEntry merge f orgMap repoNames
          reviewKeys userStore p.1 p.2).2) =
        (um.filter (fun p =>
          !(p.2 == "github:1") && (userStore p.1).isNone)).map Prod.fst := by
  intro um
  induction um with
  | nil => intro hall; exact ⟨rfl, rfl⟩
  | cons p ps ih =>
    intro hall
    have hps := ih (fun q hq => hall q (List.mem_cons_of_mem p hq))
    have hp := hall p (List.mem_cons_self p ps)
    rw [List.flatMap_cons, List.flatMap_cons, List.filter_cons, hps.1, hps.2]
    by_cases hg : p.2 = "github:1"
    · rw [show extractUserEntry merge f orgMap repoNames reviewKeys userStore
          p.1 p.2 = ([], []) from by
        rw [hg]; exact extractUserEntry_ghost merge f orgMap repoNames
          reviewKeys userStore p.1]
      rw [if_neg (by simp [hg])]
      exact ⟨rfl, rfl⟩
    · have hs : userStore p.1 = none := by
        rcases hp with hp | hp
        · exact absurd hp hg
        · exact hp
      rw [extractUserEntry_miss merge f orgMap repoNames reviewKeys userStore
        p.1 p.2 hg hs]
      rw [if_pos (by simp [hg, hs])]
      exact ⟨rfl, rfl⟩

/-- C10: extraction skips a user-map entry whose new identifier is the
ghost sentinel `github:1` outright (no record, no report), pushes the old
key of an entry whose source user is missing onto the unknown-users report
without writing a record, and aggregates per-entry output independently —
so a map consisting solely of such entries produces no user lines at all
and reports exactly the missing old keys, in order. -/
theorem C10_user_skip_paths (merge : Bool) (f : String → String)
    (orgMap : Option (List (String × String))) (repoNames : List String)
    (reviewKeys : List String) (userStore : String → Option JVal) :
    (∀ oldUserKey, extractUserEntry merge f orgMap repoNames reviewKeys
        userStore oldUserKey "github:1" = ([], [])) ∧
    (∀ oldUserKey newUserKey, newUserKey ≠ "github:1" →
      userStore oldUserKey = none →
      extractUserEntry merge f orgMap repoNames reviewKeys userStore
        oldUserKey newUserKey = ([], [oldUserKey])) ∧
    (∀ userMap : List (String × String),
      extractUsers merge f orgMap repoNames reviewKeys userStore userMap =
        (userMap.flatMap (fun p => (extractUserEntry merge f orgMap repoNames
            reviewKeys userStore p.1 p.2).1),
         userMap.flatMap (fun p => (extractUserEntry merge f orgMap repoNames
            reviewKeys userStore p.1 p.2).2))) ∧
    (∀ userMap : List (String × String),
      (∀ p ∈ userMap, p.2 = "github:1" ∨ userStore p.1 = none) →
      extractUsers merge f orgMap repoNames reviewKeys userStore userMap =
        ([], (userMap.filter (fun p =>
          !(p.2 == "github:1") && (userStore p.1).isNone)).map Prod.fst)) := by
  have hfold : ∀ userMap : List (String × String),
      extractUsers merge f orgMap repoNames reviewKeys userStore userMap =
        (userMap.flatMap (fun p => (extractUserEntry merge f orgMap repoNames
            reviewKeys userStore p.1 p.2).1),
         userMap.flatMap (fun p => (extractUserEntry merge f orgMap repoNames
            reviewKeys userStore p.1 p.2).2)) := by
    intro um
    unfold extractUsers
    have h := foldl_accumulate (fun p : String × String =>
      extractUserEntry merge f orgMap repoNames reviewKeys userStore p.1 p.2)
      um ([], [])
    simpa using h
  refine ⟨fun oldK => extractUserEntry_ghost merge f orgMap repoNames
      reviewKeys userStore oldK,
    fun oldK newK hg hs => extractUserEntry_miss merge f orgMap repoNames
      reviewKeys userStore oldK newK hg hs,
    hfold, ?_⟩
  intro um hall
  rw [hfold um]
  have h := extractUsers_skip_aux merge f orgMap repoNames reviewKeys
    userStore um hall
  rw [h.1, h.2]

theorem C10_user_skip_paths_witness :
    extractUsers false (fun k => k) none [] []
      (fun k => if k = "github:7" then some (JVal.obj [("a", JVal.num 1)])
        else none)
      [("github:5", "github:1"), ("github:6", "github:9")] =
      ([], ["github:6"]) := by
  rw [(C10_user_skip_paths false (fun k => k) none [] []
    (fun k => if k = "github:7" then some (JVal.obj [("a", JVal.num 1)])
      else none)).2.2.2
    [("github:5", "github:1"), ("github:6", "github:9")]
    (by
      intro p hp
      rcases List.mem_cons.mp hp with rfl | hp2
      · exact Or.inl rfl
      · rcases List.mem_cons.mp hp2 with rfl | hp3
        · exact Or.inr rfl
        · cases hp3)]
  rfl

end EnterpriseTools
